import Mathlib

/-!
# Persistent HTTP connection cache (`chttp_persistent_connection.c`)

A shallow embedding of the persistent-connection cache of CyberLink for C and
a verification of its contract.

Modelling conventions.

* The intrusive circular list hanging off the sentinel `cache` is the Lean list
  of its ordinary nodes, in traversal order: the first element is
  `cg_list_next(cache)`, the last one is the node appended most recently.
* `void *cacheData` is a natural number, `NULL` being `0`.
* `CgString *host` is an optional string: `none` is the null pointer that a
  failed `cg_string_new` leaves in the node.
* `CgSysTime` is a signed integer type whose declaration (`util/ctime.h`) is
  not among the sources; its width `bits` is a parameter of the model. Clock
  readings and timestamps are integers, and the one sum the module computes,
  `timestamp + CG_HTTP_PERSISTENT_TIMEOUT_PERIOD`, wraps around at that width.
* Every reading of `cg_getcurrentsystemtime()` is an explicit argument, and so
  is the outcome of every allocation (`malloc`, `cg_mutex_new`,
  `cg_string_new`).
* The handle destructor (`curl_easy_cleanup`, or socket close and delete) is
  observed through the log `destroyed`, to which each call appends the handle
  it was given.
-/

namespace PersistentConnection

/-- The type `CgSysTime` of clock readings. -/
abbrev CgSysTime := Int

/-- The null pointer. -/
def NULL : Nat := 0

/-- The C truth value `TRUE`. -/
abbrev TRUE : Bool := true

/-- The C truth value `FALSE`. -/
abbrev FALSE : Bool := false

/-- The constant `CG_HTTP_PERSISTENT_CACHE_SIZE`. -/
def CG_HTTP_PERSISTENT_CACHE_SIZE : Nat := 5

/-- The constant `CG_HTTP_PERSISTENT_TIMEOUT_PERIOD`. -/
def CG_HTTP_PERSISTENT_TIMEOUT_PERIOD : Int := 60

/-- The largest value of `CgSysTime`, a signed integer type of `bits` bits. -/
def CgSysTime.maxValue (bits : Nat) : Int :=
  ((2 ^ (bits - 1) : Nat) : Int) - 1

/-- An ordinary (non-sentinel) node of the list: the payload fields of
`struct _CgHttpPersistentConnection`. The links `prev`, `next` and `headFlag`
are carried by the position of the node in the list. The field `host` is
`none` when the node has no string object. -/
structure CgHttpPersistentConnection where
  host : Option String
  port : Int
  cacheData : Nat
  timestamp : CgSysTime
deriving DecidableEq, Repr

/-- The list of ordinary nodes reachable from the sentinel. -/
abbrev CgHttpPersistentConnectionList := List CgHttpPersistentConnection

/-- The global state of the module: the static `cache` (absent when `NULL`),
the static `persistent_connection_mutex` (absent when `NULL`, otherwise
carrying whether it is held), and the log of handles passed to the handle
destructor so far. -/
structure State where
  cache : Option CgHttpPersistentConnectionList
  persistent_connection_mutex : Option Bool
  destroyed : List Nat
deriving DecidableEq, Repr

/-- The state of the module before any call: both statics are `NULL`. -/
def initialState : State :=
  { cache := none, persistent_connection_mutex := none, destroyed := [] }

/-! ## The list and string primitives -/

/-- Modelled from the spec: `cg_list_size` of `util/clist.c`, the "size query"
of the store, the number of ordinary nodes after the sentinel. -/
def cg_list_size (headList : CgHttpPersistentConnectionList) : Nat :=
  headList.length

/-- Modelled from the spec: `cg_list_add` of `util/clist.c`, the
"append-at-tail" of the store: the node is linked in just before the
sentinel, which is the last traversal position. -/
def cg_list_add (headList : CgHttpPersistentConnectionList)
    (node : CgHttpPersistentConnection) : CgHttpPersistentConnectionList :=
  headList ++ [node]

/-- Modelled from the spec: `cg_list_remove` of `util/clist.c`, the
"remove-from-anywhere" of the store. The node is designated by the nodes
before it and the nodes after it; unlinking it leaves those, in order. -/
def cg_list_remove (before after : CgHttpPersistentConnectionList) :
    CgHttpPersistentConnectionList :=
  before ++ after

/-- Modelled from the spec: the traversal
`for (node = cg_list_gets(cache); node != NULL; node = cg_list_next(node))`
of `util/clist.h`, "iterate-in-order", stopped at the first node on which the
loop body's test succeeds. The result is that node together with the nodes
before it and the nodes after it, or `none` when the traversal reaches the
sentinel. -/
def cg_list_scan (test : CgHttpPersistentConnection → Bool) :
    CgHttpPersistentConnectionList →
    Option (CgHttpPersistentConnectionList × CgHttpPersistentConnection ×
      CgHttpPersistentConnectionList)
  | [] => none
  | node :: rest =>
    if test node then some ([], node, rest)
    else
      match cg_list_scan test rest with
      | none => none
      | some (before, found, after) => some (node :: before, found, after)

/-- Modelled from the spec: `cg_string_new` of `util/cstring.c`, which
allocates the string object that holds the "host" of an entry; `ok` tells
whether the allocation succeeds, and a failed one gives the null pointer. -/
def cg_string_new (ok : Bool) : Option String :=
  if ok then some "" else none

/-- Modelled from the spec: `cg_string_setvalue` of `util/cstring.c`, which
"populates the host" of the target slot with a copy of `value`; on the null
pointer there is no string object to populate. -/
def cg_string_setvalue (str : Option String) (value : String) : Option String :=
  match str with
  | none => none
  | some _ => some value

/-! ## Locking -/

/-- The function `cg_http_persistentconnection_lock`. -/
def cg_http_persistentconnection_lock (s : State) : State :=
  match s.persistent_connection_mutex with
  | none => s
  | some _ => { s with persistent_connection_mutex := some true }

/-- The function `cg_http_persistentconnection_unlock`. -/
def cg_http_persistentconnection_unlock (s : State) : State :=
  match s.persistent_connection_mutex with
  | none => s
  | some _ => { s with persistent_connection_mutex := some false }

/-! ## Life cycle of the cache and of its nodes -/

/-- The function `cg_http_persistentconnection_init`. The flags tell whether
`cg_mutex_new` and the `malloc` of the sentinel succeed. -/
def cg_http_persistentconnection_init (mutexOk cacheOk : Bool) (s : State) :
    Bool × State :=
  match s.cache with
  | some _ => (TRUE, s)
  | none =>
    if mutexOk then
      let s1 := cg_http_persistentconnection_lock
        { s with persistent_connection_mutex := some false }
      if cacheOk then
        (TRUE, cg_http_persistentconnection_unlock { s1 with cache := some [] })
      else
        (FALSE, { cg_http_persistentconnection_unlock s1 with
                    persistent_connection_mutex := none })
    else
      (FALSE, { s with persistent_connection_mutex := none })

/-- The function `cg_http_persistentconnection_new`. `allocOk` tells whether
the `malloc` of the node succeeds, `hostOk` whether `cg_string_new` does; the
result is `none` (the null pointer) when the first fails, and a zeroed node,
whose `host` is taken unchecked from `cg_string_new`, otherwise. -/
def cg_http_persistentconnection_new (allocOk hostOk : Bool) :
    Option CgHttpPersistentConnection :=
  if allocOk then
    some { host := cg_string_new hostOk, port := 0, cacheData := NULL,
           timestamp := 0 }
  else none

/-- The function `cg_http_persistentconnection_delete`: the handle of the node
goes to the handle destructor, then the node is freed. -/
def cg_http_persistentconnection_delete (node : CgHttpPersistentConnection)
    (destroyed : List Nat) : List Nat :=
  destroyed ++ [node.cacheData]

/-- Modelled from the spec: `cg_list_clear` of `util/clist.c`, which unlinks
the first node and hands it to the destructor until no node is left. -/
def cg_list_clear :
    CgHttpPersistentConnectionList → List Nat →
    CgHttpPersistentConnectionList × List Nat
  | [], destroyed => ([], destroyed)
  | node :: rest, destroyed =>
    cg_list_clear rest (cg_http_persistentconnection_delete node destroyed)

/-! ## Lookup -/

/-- The sum `node->timestamp + CG_HTTP_PERSISTENT_TIMEOUT_PERIOD` of the sweep
loop, as computed in `CgSysTime`. A timestamp is a value of the type, at most
`CgSysTime.maxValue bits`, and the period is positive, so the sum leaves the
range only upwards and by less than `2 ^ bits`; it then wraps around. -/
def timeoutDeadline (bits : Nat) (timestamp : CgSysTime) : CgSysTime :=
  if timestamp + CG_HTTP_PERSISTENT_TIMEOUT_PERIOD ≤ CgSysTime.maxValue bits then
    timestamp + CG_HTTP_PERSISTENT_TIMEOUT_PERIOD
  else
    timestamp + CG_HTTP_PERSISTENT_TIMEOUT_PERIOD - ((2 ^ bits : Nat) : Int)

/-- The test of the sweep loop of `cg_http_persistentconnection_get`:
`sys_time > node->timestamp + CG_HTTP_PERSISTENT_TIMEOUT_PERIOD`. -/
def expired (bits : Nat) (sys_time : CgSysTime)
    (node : CgHttpPersistentConnection) : Bool :=
  decide (sys_time > timeoutDeadline bits node.timestamp)

/-- The test of the match loops of `cg_http_persistentconnection_get` and
`cg_http_persistentconnection_put`:
`cg_strcmp(cg_string_getvalue(node->host), host) == 0 && node->port == port`.
A node without a string object has no value to compare and matches no host. -/
def sameKey (host : String) (port : Int) (node : CgHttpPersistentConnection) :
    Bool :=
  decide (node.host = some host) && decide (node.port = port)

/-- The `do ... while (iterate)` loop of `cg_http_persistentconnection_get`:
each round scans from the first node, unlinks and deletes the first expired
node it meets and asks for another round; a round that meets no expired node
ends the loop. The second argument bounds the number of rounds. -/
def sweepLoop (bits : Nat) : Nat → CgSysTime → CgHttpPersistentConnectionList →
    List Nat → CgHttpPersistentConnectionList × List Nat
  | 0, _, l, destroyed => (l, destroyed)
  | fuel + 1, sys_time, l, destroyed =>
    match cg_list_scan (expired bits sys_time) l with
    | none => (l, destroyed)
    | some (before, node, after) =>
      sweepLoop bits fuel sys_time (cg_list_remove before after)
        (cg_http_persistentconnection_delete node destroyed)

/-- The sweep of `cg_http_persistentconnection_get`, run with one round more
than there are nodes (each round but the last unlinks a node). -/
def sweep (bits : Nat) (sys_time : CgSysTime)
    (l : CgHttpPersistentConnectionList) (destroyed : List Nat) :
    CgHttpPersistentConnectionList × List Nat :=
  sweepLoop bits (cg_list_size l + 1) sys_time l destroyed

/-- The function `cg_http_persistentconnection_get`. `sys_time` is the clock
reading taken on entry and `now` the one taken on a hit. -/
def cg_http_persistentconnection_get (bits : Nat) (host : String) (port : Int)
    (sys_time now : CgSysTime) (s : State) : Nat × State :=
  match s.cache with
  | none => (NULL, s)
  | some l =>
    let swept := sweep bits sys_time l s.destroyed
    match cg_list_scan (sameKey host port) swept.1 with
    | some (before, node, after) =>
      (node.cacheData,
        { s with
          cache := some (cg_list_add (cg_list_remove before after)
            { node with timestamp := now })
          destroyed := swept.2 })
    | none => (NULL, { s with cache := some swept.1, destroyed := swept.2 })

/-! ## Insertion, replacement and deletion -/

/-- The tail of `cg_http_persistentconnection_put`, from `if (data != NULL)`
on: `l` is the list without `new_node`, which is either filled in and
appended, or deleted. -/
def putFinish (host : String) (port : Int) (data : Nat) (now : CgSysTime)
    (l : CgHttpPersistentConnectionList) (new_node : CgHttpPersistentConnection)
    (s : State) : Bool × State :=
  if data ≠ NULL then
    (TRUE, { s with
      cache := some (cg_list_add l
        { new_node with host := cg_string_setvalue new_node.host host,
                        port := port, cacheData := data, timestamp := now }) })
  else
    (TRUE, { s with
      cache := some l
      destroyed := cg_http_persistentconnection_delete new_node s.destroyed })

/-- The branch `if (new_node == NULL)` nested in the "We didn't find it" block
of `cg_http_persistentconnection_put`: nothing to do for a `NULL` handle,
otherwise a node is asked of `cg_http_persistentconnection_new`, and the call
fails when that returns the null pointer. -/
def putNew (host : String) (port : Int) (data : Nat) (now : CgSysTime)
    (allocOk hostOk : Bool) (l : CgHttpPersistentConnectionList) (s : State) :
    Bool × State :=
  if data = NULL then (TRUE, s)
  else
    match cg_http_persistentconnection_new allocOk hostOk with
    | none => (FALSE, s)
    | some new_node => putFinish host port data now l new_node s

/-- The function `cg_http_persistentconnection_put`. `now` is the clock
reading; `allocOk` and `hostOk` are the outcomes of the allocations of a node
and of its string object, should the call make them. -/
def cg_http_persistentconnection_put (host : String) (port : Int) (data : Nat)
    (now : CgSysTime) (allocOk hostOk : Bool) (s : State) : Bool × State :=
  match s.cache with
  | none => (FALSE, s)
  | some l =>
    match cg_list_scan (sameKey host port) l with
    | some (before, node, after) =>
      if node.cacheData = data then
        (TRUE, { s with
          cache := some (before ++ { node with timestamp := now } :: after) })
      else
        putFinish host port data now (cg_list_remove before after) node s
    | none =>
      if cg_list_size l ≥ CG_HTTP_PERSISTENT_CACHE_SIZE then
        match l with
        | new_node :: rest => putFinish host port data now rest new_node s
        | [] => putNew host port data now allocOk hostOk l s
      else putNew host port data now allocOk hostOk l s

/-- The function `cg_http_persistentconnection_clear`. -/
def cg_http_persistentconnection_clear (s : State) : State :=
  match s.cache with
  | none => s
  | some l =>
    let s1 := cg_http_persistentconnection_lock s
    let cleared := cg_list_clear l s1.destroyed
    let s2 := cg_http_persistentconnection_unlock
      { s1 with cache := none, destroyed := cleared.2 }
    { s2 with persistent_connection_mutex := none }

/-! ## Runs of the interface -/

/-- A call of the public interface, with the clock readings and allocation
outcomes it meets. -/
inductive Op where
  | init (mutexOk cacheOk : Bool)
  | get (host : String) (port : Int) (sys_time now : CgSysTime)
  | put (host : String) (port : Int) (data : Nat) (now : CgSysTime)
      (allocOk hostOk : Bool)
  | clear
deriving DecidableEq, Repr

/-- The state after one call. -/
def step (bits : Nat) (s : State) : Op → State
  | .init mutexOk cacheOk => (cg_http_persistentconnection_init mutexOk cacheOk s).2
  | .get host port sys_time now =>
    (cg_http_persistentconnection_get bits host port sys_time now s).2
  | .put host port data now allocOk hostOk =>
    (cg_http_persistentconnection_put host port data now allocOk hostOk s).2
  | .clear => cg_http_persistentconnection_clear s

/-- The state after a sequence of calls. -/
def run (bits : Nat) (s : State) (ops : List Op) : State :=
  ops.foldl (step bits) s

/-- A state is reachable when some sequence of calls leads to it from the
state in which the process starts. -/
def Reachable (bits : Nat) (s : State) : Prop :=
  ∃ ops : List Op, run bits initialState ops = s

/-- The handles held by the entries of the store, in order (none when the
store is absent). -/
def heldHandles (s : State) : List Nat :=
  match s.cache with
  | none => []
  | some l => l.map (fun node => node.cacheData)

/-- The key of an entry: its host, if it has one, and its port. -/
def key (node : CgHttpPersistentConnection) : Option String × Int :=
  (node.host, node.port)

/-- Two keys clash when they are the same host string with the same port. A
key without a host string clashes with none: no lookup matches it. -/
def keyClash (k1 k2 : Option String × Int) : Prop :=
  k1.1 ≠ none ∧ k1 = k2

/-- No two entries of the list have clashing keys. -/
def KeysDistinct (l : CgHttpPersistentConnectionList) : Prop :=
  (l.map key).Pairwise (fun k1 k2 => ¬ keyClash k1 k2)

/-- The store invariant: at most `CG_HTTP_PERSISTENT_CACHE_SIZE` entries, no
two entries with clashing keys, and no `NULL` handle. -/
def StoreInv (l : CgHttpPersistentConnectionList) : Prop :=
  l.length ≤ CG_HTTP_PERSISTENT_CACHE_SIZE ∧ KeysDistinct l ∧
    ∀ node ∈ l, node.cacheData ≠ NULL

/-- The store invariant holds of the store of a state, when there is one. -/
def StateInv (s : State) : Prop :=
  ∀ l, s.cache = some l → StoreInv l

/-- The entries that the sweep of a lookup at `sys_time` keeps. -/
def unexpired (bits : Nat) (sys_time : CgSysTime)
    (l : CgHttpPersistentConnectionList) : CgHttpPersistentConnectionList :=
  l.filter (fun node => !expired bits sys_time node)

/-- The handles that the sweep of a lookup at `sys_time` destroys, in order. -/
def sweptHandles (bits : Nat) (sys_time : CgSysTime)
    (l : CgHttpPersistentConnectionList) : List Nat :=
  (l.filter (expired bits sys_time)).map (fun node => node.cacheData)

/-! ## Notions used by the contract -/

/-- Whether a call is `cg_http_persistentconnection_init`. -/
def Op.isInit : Op → Bool
  | .init _ _ => true
  | _ => false

/-- The handles passed to the destructor between the state `s` and the later
state `s'`: what the log gained. -/
def destroyedBy (s s' : State) : List Nat :=
  s'.destroyed.drop s.destroyed.length

/-- The sweep as the specification words it: a single pass that keeps, in
their order, the entries with `t ≤ timestamp + 60`, and invokes the destructor
once on the handle of each other entry. -/
def sweepSpec (t : CgSysTime) (l : CgHttpPersistentConnectionList)
    (destroyed : List Nat) : CgHttpPersistentConnectionList × List Nat :=
  (l.filter (fun node => decide (t ≤ node.timestamp + 60)),
   destroyed ++
     (l.filter (fun node => decide (¬ t ≤ node.timestamp + 60))).map
       (fun node => node.cacheData))

/-- The arguments of a call of `cg_http_persistentconnection_put` with the
clock reading and allocation outcomes it meets. -/
structure PutCall where
  host : String
  port : Int
  data : Nat
  now : CgSysTime
  allocOk : Bool
  hostOk : Bool
deriving DecidableEq, Repr

/-- The call as an `Op`. -/
def PutCall.op (c : PutCall) : Op :=
  .put c.host c.port c.data c.now c.allocOk c.hostOk

/-- The entry that the specification expects the call to store: its host,
port, handle and clock reading. -/
def PutCall.entry (c : PutCall) : CgHttpPersistentConnection :=
  { host := some c.host, port := c.port, cacheData := c.data, timestamp := c.now }

/-! ## Sample runs -/

/-- The calls that initialise the cache and store five entries at the clock
readings 0 to 4. -/
def fillOps : List Op :=
  [.init true true, .put "a" 1 11 0 true true, .put "b" 2 12 1 true true,
   .put "c" 3 13 2 true true, .put "d" 4 14 3 true true,
   .put "e" 5 15 4 true true]

/-- The store after `fillOps`. -/
def fullStore : CgHttpPersistentConnectionList :=
  [⟨some "a", 1, 11, 0⟩, ⟨some "b", 2, 12, 1⟩, ⟨some "c", 3, 13, 2⟩,
   ⟨some "d", 4, 14, 3⟩, ⟨some "e", 5, 15, 4⟩]

/-! ## Facts about the list primitives -/

theorem sameKey_iff (host : String) (port : Int) (node : CgHttpPersistentConnection) :
    sameKey host port node = true ↔ key node = (some host, port) := by
  simp [sameKey, key, Prod.ext_iff]

theorem sameKey_false_iff (host : String) (port : Int)
    (node : CgHttpPersistentConnection) :
    sameKey host port node = false ↔ key node ≠ (some host, port) := by
  rw [Ne, ← sameKey_iff]; simp

theorem sameKey_of_fields {host : String} {port : Int}
    {node : CgHttpPersistentConnection} (hh : node.host = some host)
    (hp : node.port = port) : key node = (some host, port) := by
  simp [key, hh, hp]

theorem timeoutDeadline_le (bits : Nat) (ts : Int) :
    timeoutDeadline bits ts ≤ ts + 60 := by
  unfold timeoutDeadline CG_HTTP_PERSISTENT_TIMEOUT_PERIOD
  split
  · exact Int.le_refl _
  · exact Int.sub_le_self _ (Int.ofNat_nonneg _)

theorem timeoutDeadline_eq (bits : Nat) (ts : Int)
    (h : ts + 60 ≤ CgSysTime.maxValue bits) :
    timeoutDeadline bits ts = ts + 60 := by
  unfold timeoutDeadline CG_HTTP_PERSISTENT_TIMEOUT_PERIOD
  rw [if_pos h]

theorem expired_false_iff (bits : Nat) (t : Int) (node : CgHttpPersistentConnection) :
    expired bits t node = false ↔ t ≤ timeoutDeadline bits node.timestamp := by
  simp [expired]

theorem expired_false_of_le (bits : Nat) (t : Int) (node : CgHttpPersistentConnection)
    (hrange : node.timestamp + 60 ≤ CgSysTime.maxValue bits)
    (h : t ≤ node.timestamp + 60) : expired bits t node = false := by
  rw [expired_false_iff, timeoutDeadline_eq bits _ hrange]
  exact h

theorem expired_of_gt (bits : Nat) (t : Int) (node : CgHttpPersistentConnection)
    (h : t > node.timestamp + 60) : expired bits t node = true := by
  have hle := timeoutDeadline_le bits node.timestamp
  simp only [expired, decide_eq_true_eq]
  exact Int.lt_of_le_of_lt hle h

theorem le_of_expired_false (bits : Nat) (t : Int) (node : CgHttpPersistentConnection)
    (h : expired bits t node = false) : t ≤ node.timestamp + 60 :=
  Int.le_trans ((expired_false_iff bits t node).mp h)
    (timeoutDeadline_le bits node.timestamp)

theorem cg_list_scan_none {test : CgHttpPersistentConnection → Bool}
    {l : CgHttpPersistentConnectionList} :
    cg_list_scan test l = none ↔ ∀ x ∈ l, test x = false := by
  induction l with
  | nil => simp [cg_list_scan]
  | cons a l ih =>
    by_cases ha : test a = true
    · simp [cg_list_scan, ha]
    · simp only [Bool.not_eq_true] at ha
      cases hs : cg_list_scan test l with
      | none => simpa [cg_list_scan, ha, hs] using ih.mp hs
      | some r =>
        have hne : ¬ ∀ x ∈ l, test x = false := fun h => by
          rw [ih.mpr h] at hs; cases hs
        simp only [cg_list_scan, ha, hs, List.mem_cons, forall_eq_or_imp, true_and]
        simpa using hne

theorem cg_list_scan_some {test : CgHttpPersistentConnection → Bool}
    {l before after : CgHttpPersistentConnectionList}
    {node : CgHttpPersistentConnection}
    (h : cg_list_scan test l = some (before, node, after)) :
    l = before ++ node :: after ∧ test node = true ∧ ∀ x ∈ before, test x = false := by
  induction l generalizing before with
  | nil => simp [cg_list_scan] at h
  | cons a l ih =>
    by_cases ha : test a = true
    · simp only [cg_list_scan, ha, if_true, Option.some.injEq, Prod.mk.injEq] at h
      obtain ⟨rfl, rfl, rfl⟩ := h
      simp [ha]
    · simp only [Bool.not_eq_true] at ha
      cases hs : cg_list_scan test l with
      | none => simp [cg_list_scan, ha, hs] at h
      | some r =>
        obtain ⟨b, n, c⟩ := r
        simp only [cg_list_scan, ha, hs, Option.some.injEq, Prod.mk.injEq] at h
        obtain ⟨rfl, rfl, rfl⟩ := h
        obtain ⟨h1, h2, h3⟩ := ih hs
        refine ⟨by simp [h1], h2, ?_⟩
        intro x hx
        rcases List.mem_cons.mp hx with rfl | hx
        · exact ha
        · exact h3 x hx

theorem cg_list_scan_append {test : CgHttpPersistentConnection → Bool}
    {before after : CgHttpPersistentConnectionList}
    {node : CgHttpPersistentConnection}
    (hb : ∀ x ∈ before, test x = false) (hn : test node = true) :
    cg_list_scan test (before ++ node :: after) = some (before, node, after) := by
  induction before with
  | nil => simp [cg_list_scan, hn]
  | cons a l ih =>
    have ha : test a = false := hb a (List.mem_cons_self _ _)
    have hl : ∀ x ∈ l, test x = false := fun x hx => hb x (List.mem_cons_of_mem _ hx)
    simp [cg_list_scan, ha, ih hl]

/-- The restart-on-removal sweep, given at least as many rounds as there are
nodes, keeps exactly the nodes that are not expired and deletes the others in
order. -/
theorem sweepLoop_eq_filter (bits : Nat) (t : CgSysTime) (fuel : Nat)
    (l : CgHttpPersistentConnectionList) (destroyed : List Nat)
    (hfuel : l.length ≤ fuel) :
    sweepLoop bits fuel t l destroyed =
      (l.filter (fun node => !expired bits t node),
       destroyed ++ (l.filter (expired bits t)).map (fun node => node.cacheData)) := by
  induction fuel generalizing l destroyed with
  | zero =>
    have : l = [] := List.length_eq_zero.mp (Nat.le_zero.mp hfuel)
    subst this
    simp [sweepLoop]
  | succ fuel ih =>
    cases hs : cg_list_scan (expired bits t) l with
    | none =>
      have hall := cg_list_scan_none.mp hs
      have h1 : l.filter (fun node => !expired bits t node) = l :=
        List.filter_eq_self.mpr (fun x hx => by simp [hall x hx])
      have h2 : l.filter (expired bits t) = [] :=
        List.filter_eq_nil_iff.mpr (fun x hx => by simp [hall x hx])
      simp [sweepLoop, hs, h1, h2]
    | some r =>
      obtain ⟨b, n, c⟩ := r
      obtain ⟨hl, hn, hb⟩ := cg_list_scan_some hs
      subst hl
      have hlen : (b ++ c).length ≤ fuel := by
        simp only [List.length_append, List.length_cons] at hfuel ⊢
        omega
      have hb2 : b.filter (expired bits t) = [] :=
        List.filter_eq_nil_iff.mpr (fun x hx => by simp [hb x hx])
      simp only [sweepLoop, hs, cg_list_remove, cg_http_persistentconnection_delete]
      rw [ih (b ++ c) _ hlen]
      simp [List.filter_append, List.filter_cons, hn, hb2]

theorem sweep_eq_filter (bits : Nat) (t : CgSysTime)
    (l : CgHttpPersistentConnectionList) (destroyed : List Nat) :
    sweep bits t l destroyed =
      (l.filter (fun node => !expired bits t node),
       destroyed ++ (l.filter (expired bits t)).map (fun node => node.cacheData)) :=
  sweepLoop_eq_filter bits t _ l destroyed (by simp [cg_list_size])

/-! ## The branches of lookup and insertion -/

theorem put_absent (host : String) (port : Int) (data : Nat) (now : CgSysTime)
    (allocOk hostOk : Bool) {s : State} (hc : s.cache = none) :
    cg_http_persistentconnection_put host port data now allocOk hostOk s =
      (FALSE, s) := by
  simp only [cg_http_persistentconnection_put, hc]

theorem put_found (host : String) (port : Int) (data : Nat) (now : CgSysTime)
    (allocOk hostOk : Bool) {s : State}
    {l before after : CgHttpPersistentConnectionList}
    {node : CgHttpPersistentConnection} (hc : s.cache = some l)
    (hs : cg_list_scan (sameKey host port) l = some (before, node, after)) :
    cg_http_persistentconnection_put host port data now allocOk hostOk s =
      if node.cacheData = data then
        (TRUE, { s with
          cache := some (before ++ { node with timestamp := now } :: after) })
      else putFinish host port data now (cg_list_remove before after) node s := by
  simp only [cg_http_persistentconnection_put, hc, hs]

theorem put_full (host : String) (port : Int) (data : Nat) (now : CgSysTime)
    (allocOk hostOk : Bool) {s : State} {rest : CgHttpPersistentConnectionList}
    {first : CgHttpPersistentConnection} (hc : s.cache = some (first :: rest))
    (hs : cg_list_scan (sameKey host port) (first :: rest) = none)
    (hlen : CG_HTTP_PERSISTENT_CACHE_SIZE ≤ (first :: rest).length) :
    cg_http_persistentconnection_put host port data now allocOk hostOk s =
      putFinish host port data now rest first s := by
  have hlen' : cg_list_size (first :: rest) ≥ CG_HTTP_PERSISTENT_CACHE_SIZE := hlen
  simp only [cg_http_persistentconnection_put, hc, hs, hlen', if_true]

theorem put_room (host : String) (port : Int) (data : Nat) (now : CgSysTime)
    (allocOk hostOk : Bool) {s : State} {l : CgHttpPersistentConnectionList}
    (hc : s.cache = some l) (hs : cg_list_scan (sameKey host port) l = none)
    (hlen : l.length < CG_HTTP_PERSISTENT_CACHE_SIZE) :
    cg_http_persistentconnection_put host port data now allocOk hostOk s =
      putNew host port data now allocOk hostOk l s := by
  have hlen' : ¬ cg_list_size l ≥ CG_HTTP_PERSISTENT_CACHE_SIZE := by
    simpa [cg_list_size] using hlen
  simp only [cg_http_persistentconnection_put, hc, hs, hlen', if_false]

theorem get_absent (bits : Nat) (host : String) (port : Int)
    (sys_time now : CgSysTime) {s : State} (hc : s.cache = none) :
    cg_http_persistentconnection_get bits host port sys_time now s = (NULL, s) := by
  simp only [cg_http_persistentconnection_get, hc]

theorem get_hit (bits : Nat) (host : String) (port : Int) (sys_time now : CgSysTime)
    {s : State} {l before after : CgHttpPersistentConnectionList}
    {node : CgHttpPersistentConnection} (hc : s.cache = some l)
    (hs : cg_list_scan (sameKey host port) (unexpired bits sys_time l) =
      some (before, node, after)) :
    cg_http_persistentconnection_get bits host port sys_time now s =
      (node.cacheData,
        { s with
          cache := some (cg_list_add (cg_list_remove before after)
            { node with timestamp := now })
          destroyed := s.destroyed ++ sweptHandles bits sys_time l }) := by
  simp only [cg_http_persistentconnection_get, hc, sweep_eq_filter]
  rw [unexpired] at hs
  simp only [hs, sweptHandles]

theorem get_miss (bits : Nat) (host : String) (port : Int) (sys_time now : CgSysTime)
    {s : State} {l : CgHttpPersistentConnectionList} (hc : s.cache = some l)
    (hs : cg_list_scan (sameKey host port) (unexpired bits sys_time l) = none) :
    cg_http_persistentconnection_get bits host port sys_time now s =
      (NULL, { s with
        cache := some (unexpired bits sys_time l)
        destroyed := s.destroyed ++ sweptHandles bits sys_time l }) := by
  simp only [cg_http_persistentconnection_get, hc, sweep_eq_filter]
  rw [unexpired] at hs
  simp only [hs, sweptHandles, unexpired]

theorem cg_string_setvalue_cases (str : Option String) (value : String) :
    cg_string_setvalue str value = some value ∨ cg_string_setvalue str value = none := by
  cases str <;> simp [cg_string_setvalue]

theorem cg_string_setvalue_some (v value : String) :
    cg_string_setvalue (some v) value = some value := rfl

/-! ## Distinct keys -/

theorem keyClash_symm {k1 k2 : Option String × Int} (h : ¬ keyClash k1 k2) :
    ¬ keyClash k2 k1 := by
  rintro ⟨h1, h2⟩
  exact h ⟨by rw [← h2]; exact h1, h2.symm⟩

theorem KeysDistinct.ofSublist {l l' : CgHttpPersistentConnectionList}
    (h : KeysDistinct l) (hsub : l'.Sublist l) : KeysDistinct l' :=
  List.Pairwise.sublist (hsub.map key) h

theorem KeysDistinct.perm {l l' : CgHttpPersistentConnectionList}
    (h : KeysDistinct l) (hperm : l.Perm l') : KeysDistinct l' :=
  ((hperm.map key).pairwise_iff (fun {_ _} hab => keyClash_symm hab)).mp h

theorem KeysDistinct.snoc {l : CgHttpPersistentConnectionList}
    {node : CgHttpPersistentConnection} (h : KeysDistinct l)
    (hfresh : ∀ x ∈ l, ¬ keyClash (key x) (key node)) :
    KeysDistinct (l ++ [node]) := by
  simp only [KeysDistinct, List.map_append, List.map_cons, List.map_nil]
  rw [List.pairwise_append]
  refine ⟨h, List.pairwise_singleton _ _, ?_⟩
  intro k1 hk1 k2 hk2
  obtain ⟨x, hx, rfl⟩ := List.mem_map.mp hk1
  rw [List.mem_singleton.mp hk2]
  exact hfresh x hx

/-- In a list with distinct keys, no entry around the one that holds the key
`(host, port)` has that key. -/
theorem others_not_key {before after : CgHttpPersistentConnectionList}
    {node : CgHttpPersistentConnection} {host : String} {port : Int}
    (h : KeysDistinct (before ++ node :: after))
    (hkey : key node = (some host, port)) :
    ∀ x ∈ before ++ after, key x ≠ (some host, port) := by
  simp only [KeysDistinct, List.map_append, List.map_cons] at h
  rw [List.pairwise_append, List.pairwise_cons] at h
  obtain ⟨-, ⟨hafter, -⟩, hbefore⟩ := h
  intro x hx hxkey
  rcases List.mem_append.mp hx with hx | hx
  · exact hbefore (key x) (List.mem_map_of_mem key hx) (key node)
      (List.mem_cons_self _ _) ⟨by simp [hxkey], hxkey.trans hkey.symm⟩
  · exact hafter (key x) (List.mem_map_of_mem key hx)
      ⟨by simp [hkey], hkey.trans hxkey.symm⟩

/-- An entry that a scan for `(host, port)` passes over does not clash with an
entry filled in for that key, whether or not the latter has a host string. -/
theorem fresh_of_not_key {host : String} {port : Int}
    {x node : CgHttpPersistentConnection} (hx : key x ≠ (some host, port))
    (hport : node.port = port)
    (hhost : node.host = some host ∨ node.host = none) :
    ¬ keyClash (key x) (key node) := by
  rintro ⟨h1, h2⟩
  rcases hhost with hh | hh
  · exact hx (by rw [h2]; simp [key, hh, hport])
  · apply h1
    rw [h2]
    simp [key, hh]

theorem mem_of_mem_split {before after : CgHttpPersistentConnectionList}
    {node x : CgHttpPersistentConnection} (hx : x ∈ before ++ after) :
    x ∈ before ++ node :: after := by
  simp only [List.mem_append, List.mem_cons] at hx ⊢
  tauto

/-! ## The store invariant along runs -/

theorem StoreInv.nil : StoreInv [] := by
  simp [StoreInv, KeysDistinct]

theorem StoreInv.sublist {l l' : CgHttpPersistentConnectionList}
    (h : StoreInv l) (hsub : l'.Sublist l) : StoreInv l' :=
  ⟨le_trans hsub.length_le h.1, h.2.1.ofSublist hsub,
    fun node hn => h.2.2 node (hsub.subset hn)⟩

theorem StoreInv.remove {before after : CgHttpPersistentConnectionList}
    {node : CgHttpPersistentConnection} (h : StoreInv (before ++ node :: after)) :
    StoreInv (cg_list_remove before after) :=
  h.sublist (by simp [cg_list_remove])

theorem StoreInv.replace {before after : CgHttpPersistentConnectionList}
    {node node' : CgHttpPersistentConnection} (h : StoreInv (before ++ node :: after))
    (hkey : key node' = key node) (hdata : node'.cacheData ≠ NULL) :
    StoreInv (before ++ node' :: after) := by
  obtain ⟨h1, h2, h3⟩ := h
  refine ⟨by simpa using h1, by simpa [KeysDistinct, hkey] using h2, ?_⟩
  intro x hx
  simp only [List.mem_append, List.mem_cons] at hx
  rcases hx with hx | rfl | hx
  · exact h3 x (by simp [hx])
  · exact hdata
  · exact h3 x (by simp [hx])

theorem StoreInv.toTail {before after : CgHttpPersistentConnectionList}
    {node node' : CgHttpPersistentConnection} (h : StoreInv (before ++ node :: after))
    (hkey : key node' = key node) (hdata : node'.cacheData ≠ NULL) :
    StoreInv (cg_list_add (cg_list_remove before after) node') := by
  have hperm : (before ++ node' :: after).Perm
      (cg_list_add (cg_list_remove before after) node') := by
    simp only [cg_list_add, cg_list_remove, List.append_assoc]
    exact List.Perm.append_left before (List.perm_append_singleton node' after).symm
  obtain ⟨h1, h2, h3⟩ := h.replace hkey hdata
  exact ⟨by rw [← hperm.length_eq]; exact h1, h2.perm hperm,
    fun x hx => h3 x (hperm.mem_iff.mpr hx)⟩

theorem StoreInv.add {l : CgHttpPersistentConnectionList}
    {node : CgHttpPersistentConnection} (h : StoreInv l)
    (hlen : l.length < CG_HTTP_PERSISTENT_CACHE_SIZE)
    (hfresh : ∀ x ∈ l, ¬ keyClash (key x) (key node)) (hdata : node.cacheData ≠ NULL) :
    StoreInv (cg_list_add l node) := by
  obtain ⟨_, h2, h3⟩ := h
  refine ⟨by simpa [cg_list_add] using hlen, h2.snoc hfresh, ?_⟩
  intro x hx
  simp only [cg_list_add, List.mem_append, List.mem_singleton] at hx
  rcases hx with hx | rfl
  · exact h3 x hx
  · exact hdata

theorem StoreInv.evictAdd {rest : CgHttpPersistentConnectionList}
    {first node : CgHttpPersistentConnection} (h : StoreInv (first :: rest))
    (hfresh : ∀ x ∈ first :: rest, ¬ keyClash (key x) (key node))
    (hdata : node.cacheData ≠ NULL) :
    StoreInv (cg_list_add rest node) := by
  have hrest : StoreInv rest := h.sublist (List.sublist_cons_self first rest)
  refine StoreInv.add hrest ?_ (fun x hx => hfresh x (List.mem_cons_of_mem _ hx)) hdata
  have := h.1
  simp only [List.length_cons] at this
  omega

theorem StateInv.initialState : StateInv initialState := by
  intro l h
  simp [PersistentConnection.initialState] at h

theorem StateInv.init (mutexOk cacheOk : Bool) {s : State} (h : StateInv s) :
    StateInv (cg_http_persistentconnection_init mutexOk cacheOk s).2 := by
  unfold cg_http_persistentconnection_init
  cases hc : s.cache with
  | some l => simpa using h
  | none =>
    intro l hl
    cases mutexOk <;> cases cacheOk <;>
      simp [hc, cg_http_persistentconnection_lock, cg_http_persistentconnection_unlock] at hl
    all_goals subst hl; exact StoreInv.nil

theorem StateInv.clear {s : State} :
    StateInv (cg_http_persistentconnection_clear s) := by
  unfold cg_http_persistentconnection_clear
  cases hc : s.cache with
  | none => intro l hl; simp [hc] at hl
  | some l0 =>
    intro l hl
    cases hm : s.persistent_connection_mutex <;>
      simp [hm, cg_http_persistentconnection_lock, cg_http_persistentconnection_unlock] at hl

theorem StateInv.get (bits : Nat) (host : String) (port : Int)
    (sys_time now : CgSysTime) {s : State} (h : StateInv s) :
    StateInv (cg_http_persistentconnection_get bits host port sys_time now s).2 := by
  cases hc : s.cache with
  | none => rw [get_absent bits host port sys_time now hc]; exact h
  | some l0 =>
    have hswept : StoreInv (unexpired bits sys_time l0) :=
      (h l0 hc).sublist (List.filter_sublist _)
    cases hs : cg_list_scan (sameKey host port) (unexpired bits sys_time l0) with
    | none =>
      rw [get_miss bits host port sys_time now hc hs]
      intro l hl
      simp only [Option.some.injEq] at hl
      subst hl
      exact hswept
    | some r =>
      obtain ⟨b, n, a⟩ := r
      rw [get_hit bits host port sys_time now hc hs]
      obtain ⟨hl, -, -⟩ := cg_list_scan_some hs
      rw [hl] at hswept
      intro l hl'
      simp only [Option.some.injEq] at hl'
      subst hl'
      exact hswept.toTail rfl (hswept.2.2 n (by simp))

theorem StoreInv.putFinish (host : String) (port : Int) (data : Nat) (now : CgSysTime)
    {l : CgHttpPersistentConnectionList} (new_node : CgHttpPersistentConnection)
    (s : State) (hl : StoreInv l)
    (hadd : data ≠ NULL → StoreInv (cg_list_add l
      { new_node with host := cg_string_setvalue new_node.host host, port := port,
                      cacheData := data, timestamp := now })) :
    StateInv (putFinish host port data now l new_node s).2 := by
  unfold PersistentConnection.putFinish
  intro l' hl'
  by_cases hd : data = NULL
  · simp only [hd, ne_eq, not_true_eq_false, if_false, Option.some.injEq] at hl'
    subst hl'
    exact hl
  · simp only [ne_eq, hd, not_false_eq_true, if_true, Option.some.injEq] at hl'
    subst hl'
    exact hadd hd

theorem StateInv.put (host : String) (port : Int) (data : Nat) (now : CgSysTime)
    (allocOk hostOk : Bool) {s : State} (h : StateInv s) :
    StateInv (cg_http_persistentconnection_put host port data now allocOk hostOk s).2 := by
  cases hc : s.cache with
  | none => rw [put_absent host port data now allocOk hostOk hc]; exact h
  | some l0 =>
    have h0 : StoreInv l0 := h l0 hc
    cases hs : cg_list_scan (sameKey host port) l0 with
    | some r =>
      obtain ⟨b, n, a⟩ := r
      rw [put_found host port data now allocOk hostOk hc hs]
      obtain ⟨hl, hn, -⟩ := cg_list_scan_some hs
      have hkey := (sameKey_iff host port n).mp hn
      rw [hl] at h0
      by_cases hd : n.cacheData = data
      · rw [if_pos hd]
        intro l hl'
        simp only [Option.some.injEq] at hl'
        subst hl'
        exact h0.replace rfl (h0.2.2 n (by simp))
      · rw [if_neg hd]
        refine StoreInv.putFinish host port data now n s h0.remove (fun hd' => ?_)
        refine h0.toTail ?_ hd'
        simp only [key, Prod.mk.injEq] at hkey
        simp [key, hkey.1, hkey.2, cg_string_setvalue]
    | none =>
      have hfresh : ∀ x ∈ l0, key x ≠ (some host, port) := fun x hx =>
        (sameKey_false_iff host port x).mp (cg_list_scan_none.mp hs x hx)
      by_cases hlen : CG_HTTP_PERSISTENT_CACHE_SIZE ≤ l0.length
      · cases l0 with
        | nil => simp [CG_HTTP_PERSISTENT_CACHE_SIZE] at hlen
        | cons first rest =>
          rw [put_full host port data now allocOk hostOk hc hs hlen]
          refine StoreInv.putFinish host port data now first s
            (h0.sublist (List.sublist_cons_self first rest)) (fun hd' => ?_)
          exact h0.evictAdd
            (fun x hx => fresh_of_not_key (hfresh x hx) rfl
              (cg_string_setvalue_cases _ _)) hd'
      · have hlen' : l0.length < CG_HTTP_PERSISTENT_CACHE_SIZE := Nat.lt_of_not_le hlen
        rw [put_room host port data now allocOk hostOk hc hs hlen']
        unfold putNew
        by_cases hd : data = NULL
        · simpa [hd] using h
        · cases allocOk
          · simpa [hd, cg_http_persistentconnection_new] using h
          · simp only [hd, if_false, cg_http_persistentconnection_new, if_true]
            refine StoreInv.putFinish host port data now _ s h0 (fun hd' => ?_)
            exact h0.add hlen'
              (fun x hx => fresh_of_not_key (hfresh x hx) rfl
                (cg_string_setvalue_cases _ _)) hd'

theorem StateInv.step (bits : Nat) {s : State} (h : StateInv s) (op : Op) :
    StateInv (step bits s op) := by
  cases op with
  | init mutexOk cacheOk => exact h.init mutexOk cacheOk
  | get host port sys_time now => exact h.get bits host port sys_time now
  | put host port data now allocOk hostOk =>
    exact h.put host port data now allocOk hostOk
  | clear => exact StateInv.clear

theorem StateInv.run (bits : Nat) {s : State} (h : StateInv s) (ops : List Op) :
    StateInv (run bits s ops) := by
  induction ops generalizing s with
  | nil => exact h
  | cons op ops ih => exact ih (h.step bits op)

theorem Reachable.inv {bits : Nat} {s : State} (h : Reachable bits s) :
    StateInv s := by
  obtain ⟨ops, rfl⟩ := h
  exact StateInv.initialState.run bits ops

/-- The store invariant in a state reached from the initial one. -/
theorem storeInv_of_run (bits : Nat) (ops : List Op)
    {l : CgHttpPersistentConnectionList}
    (hc : (run bits initialState ops).cache = some l) : StoreInv l :=
  (StateInv.initialState.run bits ops) l hc

/-! ## Lookup of a key held by a store with distinct keys -/

theorem cg_list_scan_of_split {host : String} {port : Int}
    {before after : CgHttpPersistentConnectionList} {node : CgHttpPersistentConnection}
    (hkeys : KeysDistinct (before ++ node :: after))
    (hkey : key node = (some host, port)) :
    cg_list_scan (sameKey host port) (before ++ node :: after) =
      some (before, node, after) := by
  refine cg_list_scan_append ?_ ((sameKey_iff host port node).mpr hkey)
  intro x hx
  rw [sameKey_false_iff]
  exact others_not_key hkeys hkey x (List.mem_append.mpr (Or.inl hx))

theorem cg_list_scan_of_mem {host : String} {port : Int}
    {l : CgHttpPersistentConnectionList} {node : CgHttpPersistentConnection}
    (hkeys : KeysDistinct l) (hmem : node ∈ l)
    (hkey : key node = (some host, port)) :
    ∃ before after, l = before ++ node :: after ∧
      cg_list_scan (sameKey host port) l = some (before, node, after) := by
  obtain ⟨before, after, hl⟩ := List.append_of_mem hmem
  subst hl
  exact ⟨before, after, rfl, cg_list_scan_of_split hkeys hkey⟩

theorem cg_list_scan_absent {host : String} {port : Int}
    {l : CgHttpPersistentConnectionList}
    (h : ∀ x ∈ l, key x ≠ (some host, port)) :
    cg_list_scan (sameKey host port) l = none :=
  cg_list_scan_none.mpr (fun x hx => (sameKey_false_iff host port x).mpr (h x hx))

/-- A lookup returns the handle of the entry held for the key, provided the
sweep keeps the entry and the keys of the store are distinct. -/
theorem get_of_mem (bits : Nat) (host : String) (port : Int)
    (sys_time now : CgSysTime) {s : State} {l : CgHttpPersistentConnectionList}
    {node : CgHttpPersistentConnection} (hc : s.cache = some l)
    (hkeys : KeysDistinct l) (hmem : node ∈ l)
    (hkey : key node = (some host, port))
    (hfresh : expired bits sys_time node = false) :
    (cg_http_persistentconnection_get bits host port sys_time now s).1 =
      node.cacheData := by
  have hmem' : node ∈ unexpired bits sys_time l := by
    simp only [unexpired, List.mem_filter, Bool.not_eq_true']
    exact ⟨hmem, hfresh⟩
  have hkeys' : KeysDistinct (unexpired bits sys_time l) :=
    hkeys.ofSublist (List.filter_sublist _)
  obtain ⟨b, a, -, hs⟩ := cg_list_scan_of_mem hkeys' hmem' hkey
  rw [get_hit bits host port sys_time now hc hs]

/-- A lookup of a key for which no unexpired entry is held misses: it returns
`NULL` and leaves the unexpired entries, having destroyed the others. -/
theorem get_miss_of_absent (bits : Nat) (host : String) (port : Int)
    (sys_time now : CgSysTime) {s : State} {l : CgHttpPersistentConnectionList}
    (hc : s.cache = some l)
    (habs : ∀ x ∈ unexpired bits sys_time l, key x ≠ (some host, port)) :
    cg_http_persistentconnection_get bits host port sys_time now s =
      (NULL, { s with
        cache := some (unexpired bits sys_time l)
        destroyed := s.destroyed ++ sweptHandles bits sys_time l }) :=
  get_miss bits host port sys_time now hc (cg_list_scan_absent habs)

/-- A lookup of a key for which the store holds no entry returns `NULL`. -/
theorem get_of_absent (bits : Nat) (host : String) (port : Int)
    (sys_time now : CgSysTime) {s : State} {l : CgHttpPersistentConnectionList}
    (hc : s.cache = some l) (habs : ∀ x ∈ l, key x ≠ (some host, port)) :
    (cg_http_persistentconnection_get bits host port sys_time now s).1 = NULL := by
  rw [get_miss_of_absent bits host port sys_time now hc
    (fun x hx => habs x (List.mem_of_mem_filter hx))]

theorem putFinish_fst (host : String) (port : Int) (data : Nat) (now : CgSysTime)
    (l : CgHttpPersistentConnectionList) (new_node : CgHttpPersistentConnection)
    (s : State) : (putFinish host port data now l new_node s).1 = TRUE := by
  unfold putFinish
  split <;> rfl

/-- A put on an existing store returns `TRUE` unless it has to allocate a node
and the allocation fails. -/
theorem put_fst_of_store (host : String) (port : Int) (data : Nat)
    (now : CgSysTime) (allocOk hostOk : Bool) {s : State}
    {l : CgHttpPersistentConnectionList} (hc : s.cache = some l)
    (h : ¬ ((∀ x ∈ l, ¬ (x.host = some host ∧ x.port = port)) ∧
          cg_list_size l < 5 ∧ data ≠ NULL ∧ allocOk = false)) :
    (cg_http_persistentconnection_put host port data now allocOk hostOk s).1 = TRUE := by
  cases hs : cg_list_scan (sameKey host port) l with
  | some r =>
    obtain ⟨b, n, a⟩ := r
    rw [put_found host port data now allocOk hostOk hc hs]
    split
    · rfl
    · exact putFinish_fst _ _ _ _ _ _ _
  | none =>
    have hfresh : ∀ x ∈ l, ¬ (x.host = some host ∧ x.port = port) := fun x hx hk =>
      (sameKey_false_iff host port x).mp (cg_list_scan_none.mp hs x hx)
        (sameKey_of_fields hk.1 hk.2)
    by_cases hlen : CG_HTTP_PERSISTENT_CACHE_SIZE ≤ l.length
    · cases l with
      | nil => simp [CG_HTTP_PERSISTENT_CACHE_SIZE] at hlen
      | cons first rest =>
        rw [put_full host port data now allocOk hostOk hc hs hlen]
        exact putFinish_fst _ _ _ _ _ _ _
    · have hlen' : l.length < CG_HTTP_PERSISTENT_CACHE_SIZE := Nat.lt_of_not_le hlen
      rw [put_room host port data now allocOk hostOk hc hs hlen']
      unfold putNew
      by_cases hd : data = NULL
      · rw [if_pos hd]
      · rw [if_neg hd]
        cases allocOk
        · exact absurd ⟨hfresh, hlen', hd, rfl⟩ h
        · simp only [cg_http_persistentconnection_new, if_true]
          exact putFinish_fst _ _ _ _ _ _ _

/-- A put that has to allocate a node and cannot returns `FALSE` and leaves
the state as it is. -/
theorem put_alloc_failure (host : String) (port : Int) (data : Nat)
    (now : CgSysTime) (hostOk : Bool) {s : State}
    {l : CgHttpPersistentConnectionList} (hc : s.cache = some l)
    (hfresh : ∀ x ∈ l, ¬ (x.host = some host ∧ x.port = port))
    (hlen : cg_list_size l < 5) (hd : data ≠ NULL) :
    cg_http_persistentconnection_put host port data now false hostOk s =
      (FALSE, s) := by
  have hs : cg_list_scan (sameKey host port) l = none :=
    cg_list_scan_absent (fun x hx hk => hfresh x hx (by
      simp only [key, Prod.mk.injEq] at hk
      exact hk))
  rw [put_room host port data now false hostOk hc hs hlen]
  simp [putNew, hd, cg_http_persistentconnection_new]

/-- The shape of the store after a successful put of a non-`NULL` handle: an
entry with the port, handle and clock reading of the call, among entries of
the previous store that do not have the key. The entry carries the host when
the node it fills has a string object: always when the key was cached, and
otherwise when the reused first node has one, or the fresh node got one. -/
theorem put_nonnull_shape (host : String) (port : Int) (data : Nat)
    (now : CgSysTime) (allocOk hostOk : Bool) {s : State}
    {l : CgHttpPersistentConnectionList} (hc : s.cache = some l)
    (hkeys : KeysDistinct l) (hd : data ≠ NULL)
    (hput : (cg_http_persistentconnection_put host port data now allocOk hostOk s).1
      = TRUE) :
    ∃ before after ho,
      (cg_http_persistentconnection_put host port data now allocOk hostOk s).2 =
        { s with cache := some (before ++
            ({ host := ho, port := port, cacheData := data, timestamp := now } :
              CgHttpPersistentConnection) :: after) } ∧
      (∀ x ∈ before ++ after, x ∈ l ∧ key x ≠ (some host, port)) ∧
      ((∀ x ∈ l, x.host ≠ none) →
        ((∀ x ∈ l, key x ≠ (some host, port)) → l.length < 5 → hostOk = true) →
        ho = some host) := by
  cases hs : cg_list_scan (sameKey host port) l with
  | some r =>
    obtain ⟨b, n, a⟩ := r
    rw [put_found host port data now allocOk hostOk hc hs] at hput ⊢
    obtain ⟨hl, hn, hb⟩ := cg_list_scan_some hs
    have hkey := (sameKey_iff host port n).mp hn
    have hother : ∀ x ∈ b ++ a, x ∈ l ∧ key x ≠ (some host, port) := by
      intro x hx
      rw [hl] at hkeys ⊢
      exact ⟨mem_of_mem_split hx, others_not_key hkeys hkey x hx⟩
    simp only [key, Prod.mk.injEq] at hkey
    by_cases hdata : n.cacheData = data
    · rw [if_pos hdata]
      refine ⟨b, a, some host, ?_, hother, fun _ _ => rfl⟩
      simp [← hkey.1, ← hkey.2, ← hdata]
    · rw [if_neg hdata]
      refine ⟨b ++ a, [], some host, ?_, by simpa using hother, fun _ _ => rfl⟩
      simp [putFinish, hd, cg_list_add, cg_list_remove, hkey.1, cg_string_setvalue]
  | none =>
    have hfresh : ∀ x ∈ l, key x ≠ (some host, port) := fun x hx =>
      (sameKey_false_iff host port x).mp (cg_list_scan_none.mp hs x hx)
    by_cases hlen : CG_HTTP_PERSISTENT_CACHE_SIZE ≤ l.length
    · cases l with
      | nil => simp [CG_HTTP_PERSISTENT_CACHE_SIZE] at hlen
      | cons first rest =>
        rw [put_full host port data now allocOk hostOk hc hs hlen]
        refine ⟨rest, [], cg_string_setvalue first.host host, ?_, ?_, ?_⟩
        · simp [putFinish, hd, cg_list_add]
        · intro x hx
          have hx' : x ∈ first :: rest := by
            simp only [List.append_nil] at hx
            exact List.mem_cons_of_mem _ hx
          exact ⟨hx', hfresh x hx'⟩
        · intro hhosts _
          have hfirst := hhosts first (List.mem_cons_self _ _)
          cases hf : first.host with
          | none => exact absurd hf hfirst
          | some v => rfl
    · have hlt : l.length < CG_HTTP_PERSISTENT_CACHE_SIZE := Nat.lt_of_not_le hlen
      rw [put_room host port data now allocOk hostOk hc hs hlt] at hput ⊢
      cases allocOk
      · simp [putNew, hd, cg_http_persistentconnection_new] at hput
      · refine ⟨l, [], cg_string_setvalue (cg_string_new hostOk) host, ?_, ?_, ?_⟩
        · simp [putNew, putFinish, hd, cg_list_add, cg_http_persistentconnection_new]
        · intro x hx
          simp only [List.append_nil] at hx
          exact ⟨hx, hfresh x hx⟩
        · intro _ hok
          rw [hok hfresh hlt]
          rfl

theorem count_sweptHandles_eq_zero (bits : Nat) (t : CgSysTime) (d : Nat)
    {l : CgHttpPersistentConnectionList} (h : ∀ x ∈ l, x.cacheData ≠ d) :
    (sweptHandles bits t l).count d = 0 := by
  rw [List.count_eq_zero]
  intro hmem
  obtain ⟨x, hx, hxd⟩ := List.mem_map.mp hmem
  exact h x (List.mem_of_mem_filter hx) hxd

theorem sweptHandles_split (bits : Nat) (t : CgSysTime)
    (before after : CgHttpPersistentConnectionList)
    (node : CgHttpPersistentConnection) (hexp : expired bits t node = true) :
    sweptHandles bits t (before ++ node :: after) =
      sweptHandles bits t before ++ node.cacheData :: sweptHandles bits t after := by
  simp [sweptHandles, List.filter_append, List.filter_cons, hexp]

/-! ## The contract -/

/-- C1, as stated, fails, at four inputs on a clock of 64 bits. On the freshly
initialised store, a put of the handle 7 whose node allocation fails returns
`FALSE`. A put whose string allocation fails returns `TRUE` and stores an entry
without host, which the lookup that follows does not match. A put at the
largest clock reading stores an entry that the lookup at the same reading
sweeps, the sum `timestamp + 60` having wrapped around. And on a full store
whose first entry has no host, a put that allocates nothing reuses that node,
and the lookup that follows misses. -/
theorem put_get_roundtrip_failures :
    ((7 : Nat) ≠ NULL ∧
      (cg_http_persistentconnection_put "a" 1 7 0 false true
        (run 64 initialState [.init true true])).1 = FALSE) ∧
    ((cg_http_persistentconnection_put "a" 1 7 0 true false
        (run 64 initialState [.init true true])) =
        (TRUE, { cache := some [⟨none, 1, 7, 0⟩],
                 persistent_connection_mutex := some false, destroyed := [] }) ∧
      (cg_http_persistentconnection_get 64 "a" 1 0 0
        (cg_http_persistentconnection_put "a" 1 7 0 true false
          (run 64 initialState [.init true true])).2).1 = NULL) ∧
    ((9223372036854775807 : Int) ≤ 9223372036854775807 + 60 ∧
      (cg_http_persistentconnection_put "a" 1 7 9223372036854775807 true true
        (run 64 initialState [.init true true])).1 = TRUE ∧
      cg_http_persistentconnection_get 64 "a" 1 9223372036854775807
          9223372036854775807
          (cg_http_persistentconnection_put "a" 1 7 9223372036854775807 true true
            (run 64 initialState [.init true true])).2 =
        (NULL, { cache := some [], persistent_connection_mutex := some false,
                 destroyed := [7] })) ∧
    ((run 64 initialState
        [.init true true, .put "a" 1 11 0 true false, .put "b" 2 12 1 true true,
         .put "c" 3 13 2 true true, .put "d" 4 14 3 true true,
         .put "e" 5 15 4 true true]).cache =
        some [⟨none, 1, 11, 0⟩, ⟨some "b", 2, 12, 1⟩, ⟨some "c", 3, 13, 2⟩,
          ⟨some "d", 4, 14, 3⟩, ⟨some "e", 5, 15, 4⟩] ∧
      (cg_http_persistentconnection_put "f" 6 16 5 true true
        (run 64 initialState
          [.init true true, .put "a" 1 11 0 true false, .put "b" 2 12 1 true true,
           .put "c" 3 13 2 true true, .put "d" 4 14 3 true true,
           .put "e" 5 15 4 true true])).1 = TRUE ∧
      (cg_http_persistentconnection_get 64 "f" 6 5 5
        (cg_http_persistentconnection_put "f" 6 16 5 true true
          (run 64 initialState
            [.init true true, .put "a" 1 11 0 true false, .put "b" 2 12 1 true true,
             .put "c" 3 13 2 true true, .put "d" 4 14 3 true true,
             .put "e" 5 15 4 true true])).2).1 = NULL) := by
  decide

/-- C1, amended (put-then-lookup round trip): for every width of the clock, in
every reachable state with a store whose entries all have a host string, for
every host, port and non-null handle `d`, if the put at clock reading `t1`
meets no failing allocation (of a node and of its string, made only when the
key is absent and the store holds fewer than 5 entries), and `t1 + 60` does
not exceed the largest clock value, then the put returns `TRUE` and a lookup
of the same key that follows immediately with clock reading `t2 ≤ t1 + 60`
returns exactly `d`. -/
theorem put_get_roundtrip (bits : Nat) (ops : List Op)
    (l : CgHttpPersistentConnectionList)
    (h : String) (p : Int) (d : Nat) (t1 t2 now : CgSysTime)
    (allocOk hostOk : Bool)
    (hc : (run bits initialState ops).cache = some l)
    (hhosts : ∀ x ∈ l, x.host ≠ none) (hd : d ≠ NULL)
    (halloc : (∀ x ∈ l, ¬ (x.host = some h ∧ x.port = p)) → cg_list_size l < 5 →
      allocOk = true ∧ hostOk = true)
    (hrange : t1 + 60 ≤ CgSysTime.maxValue bits) (ht : t2 ≤ t1 + 60) :
    (cg_http_persistentconnection_put h p d t1 allocOk hostOk
      (run bits initialState ops)).1 = TRUE ∧
    (cg_http_persistentconnection_get bits h p t2 now
      (cg_http_persistentconnection_put h p d t1 allocOk hostOk
        (run bits initialState ops)).2).1 = d := by
  have hinv : StoreInv l := storeInv_of_run bits ops hc
  have hput : (cg_http_persistentconnection_put h p d t1 allocOk hostOk
      (run bits initialState ops)).1 = TRUE := by
    apply put_fst_of_store h p d t1 allocOk hostOk hc
    rintro ⟨hfresh, hlen, -, hfalse⟩
    rw [(halloc hfresh hlen).1] at hfalse
    cases hfalse
  refine ⟨hput, ?_⟩
  obtain ⟨b, a, ho, hshape, -, hho⟩ :=
    put_nonnull_shape h p d t1 allocOk hostOk hc hinv.2.1 hd hput
  have hho' : ho = some h := hho hhosts (fun hfresh hlen =>
    (halloc (fun x hx hk => hfresh x hx (sameKey_of_fields hk.1 hk.2)) hlen).2)
  subst hho'
  have hinv' : StoreInv (b ++ (⟨some h, p, d, t1⟩ : CgHttpPersistentConnection) :: a) :=
    (StateInv.initialState.run bits ops).put h p d t1 allocOk hostOk _
      (by rw [hshape])
  rw [hshape]
  exact @get_of_mem bits h p t2 now
    { run bits initialState ops with
      cache := some (b ++ (⟨some h, p, d, t1⟩ : CgHttpPersistentConnection) :: a) }
    _ ⟨some h, p, d, t1⟩ rfl hinv'.2.1 (by simp) rfl
    (expired_false_of_le bits t2 _ hrange ht)

/-- C1, amended, at a concrete input: a store of one entry, the new key
`("f", 6)` with handle 16, put at clock reading 5 and lookup at 65, on a clock
of 64 bits. -/
theorem put_get_roundtrip_witness :
    (cg_http_persistentconnection_put "f" 6 16 5 true true
      (run 64 initialState [.init true true, .put "a" 1 11 0 true true])).1 = TRUE ∧
    (cg_http_persistentconnection_get 64 "f" 6 65 65
      (cg_http_persistentconnection_put "f" 6 16 5 true true
        (run 64 initialState [.init true true, .put "a" 1 11 0 true true])).2).1 = 16 :=
  put_get_roundtrip 64 [.init true true, .put "a" 1 11 0 true true]
    [⟨some "a", 1, 11, 0⟩] "f" 6 16 5 65 65 true true
    (by decide) (by decide) (by decide) (fun _ _ => ⟨rfl, rfl⟩) (by decide) (by decide)

/-- C2 (capacity invariant): for every width of the clock, in every state
reached from the initial state by any sequence of initialize, lookup, put and
clear calls, with any keys, handles, clock readings and allocation outcomes, a
store that exists holds at most 5 entries. -/
theorem capacity_invariant (bits : Nat) (ops : List Op)
    (l : CgHttpPersistentConnectionList)
    (hc : (run bits initialState ops).cache = some l) :
    cg_list_size l ≤ 5 :=
  (storeInv_of_run bits ops hc).1

/-- C2 at a concrete input: a sixth put on the full store of `fillOps`. -/
theorem capacity_invariant_witness :
    (run 64 initialState (fillOps ++ [.put "f" 6 16 5 true true])).cache =
      some [⟨some "b", 2, 12, 1⟩, ⟨some "c", 3, 13, 2⟩, ⟨some "d", 4, 14, 3⟩,
        ⟨some "e", 5, 15, 4⟩, ⟨some "f", 6, 16, 5⟩] ∧
    cg_list_size [(⟨some "b", 2, 12, 1⟩ : CgHttpPersistentConnection),
      ⟨some "c", 3, 13, 2⟩, ⟨some "d", 4, 14, 3⟩, ⟨some "e", 5, 15, 4⟩,
      ⟨some "f", 6, 16, 5⟩] ≤ 5 :=
  ⟨by decide,
    capacity_invariant 64 (fillOps ++ [.put "f" 6 16 5 true true]) _ (by decide)⟩

/-- C3 (key uniqueness invariant): for every width of the clock, in every
state reached from the initial state by any sequence of initialize, lookup,
put and clear calls, no two entries of the store have both the same host
string and the same port. An entry whose string allocation failed has no host
string. -/
theorem key_uniqueness_invariant (bits : Nat) (ops : List Op)
    (l : CgHttpPersistentConnectionList)
    (hc : (run bits initialState ops).cache = some l) :
    l.Pairwise (fun a b => ¬ (a.host ≠ none ∧ a.host = b.host ∧ a.port = b.port)) := by
  have hkeys := (storeInv_of_run bits ops hc).2.1
  rw [KeysDistinct, List.pairwise_map] at hkeys
  refine hkeys.imp ?_
  intro a b hab hand
  exact hab ⟨hand.1, by simp [key, hand.2.1, hand.2.2]⟩

/-- C3 at a concrete input: a put that replaces the handle of a cached key
leaves one entry for that key. -/
theorem key_uniqueness_invariant_witness :
    (run 64 initialState (fillOps ++ [.put "b" 2 22 5 true true])).cache =
      some [⟨some "a", 1, 11, 0⟩, ⟨some "c", 3, 13, 2⟩, ⟨some "d", 4, 14, 3⟩,
        ⟨some "e", 5, 15, 4⟩, ⟨some "b", 2, 22, 5⟩] ∧
    List.Pairwise (fun a b => ¬ (a.host ≠ none ∧ a.host = b.host ∧ a.port = b.port))
      [(⟨some "a", 1, 11, 0⟩ : CgHttpPersistentConnection), ⟨some "c", 3, 13, 2⟩,
        ⟨some "d", 4, 14, 3⟩, ⟨some "e", 5, 15, 4⟩, ⟨some "b", 2, 22, 5⟩] :=
  ⟨by decide,
    key_uniqueness_invariant 64 (fillOps ++ [.put "b" 2 22 5 true true]) _
      (by decide)⟩

/-- C4 (deleting an absent key is a no-op), at the failing input: the store of
`fillOps` holds five entries and none for `("f", 6)`, yet `put("f", 6, NULL)`
unlinks the first entry `("a", 1)` and passes its handle 11 to the destructor,
instead of leaving the store as it is. -/
theorem delete_absent_key_on_full_store :
    (run 64 initialState fillOps).cache = some fullStore ∧
    (∀ x ∈ fullStore, ¬ (x.host = some "f" ∧ x.port = 6)) ∧
    cg_http_persistentconnection_put "f" 6 NULL 5 true true
        (run 64 initialState fillOps) =
      (TRUE,
        { cache := some [⟨some "b", 2, 12, 1⟩, ⟨some "c", 3, 13, 2⟩,
            ⟨some "d", 4, 14, 3⟩, ⟨some "e", 5, 15, 4⟩]
          persistent_connection_mutex := some false
          destroyed := [11] }) := by
  decide

/-- C5 (destructor on every removal), at the failing inputs. Replacement: the
handle 7 cached for `("a", 1)` is no longer held once `put("a", 1, 8)` returns,
and the destructor log is empty. Capacity eviction: the handle 11 of the first
entry of the full store is no longer held once `put("f", 6, 16)` returns, and
the destructor log is empty. -/
theorem replaced_and_evicted_handles_not_destroyed :
    heldHandles (run 64 initialState [.init true true, .put "a" 1 7 0 true true])
      = [7] ∧
    run 64 initialState
        [.init true true, .put "a" 1 7 0 true true, .put "a" 1 8 1 true true] =
      { cache := some [⟨some "a", 1, 8, 1⟩],
        persistent_connection_mutex := some false, destroyed := [] } ∧
    heldHandles (run 64 initialState fillOps) = [11, 12, 13, 14, 15] ∧
    run 64 initialState (fillOps ++ [.put "f" 6 16 5 true true]) =
      { cache := some [⟨some "b", 2, 12, 1⟩, ⟨some "c", 3, 13, 2⟩,
          ⟨some "d", 4, 14, 3⟩, ⟨some "e", 5, 15, 4⟩, ⟨some "f", 6, 16, 5⟩]
        persistent_connection_mutex := some false
        destroyed := [] } := by
  decide

/-- C6 (capacity eviction removes the least recently touched entry), at the
failing input: after `fillOps`, re-offering the handle 11 for `("a", 1)` at
clock reading 5 refreshes the timestamp of the first entry without moving it;
the put of the new key `("f", 6)` at clock reading 6 then removes that entry,
whose timestamp 5 is greater than the timestamp 1 of the entry `("b", 2)`
that stays. The clock readings 0, 1, 2, 3, 4, 5, 6 never decrease. -/
theorem capacity_eviction_not_least_recent :
    (run 64 initialState (fillOps ++ [.put "a" 1 11 5 true true])).cache =
      some [⟨some "a", 1, 11, 5⟩, ⟨some "b", 2, 12, 1⟩, ⟨some "c", 3, 13, 2⟩,
        ⟨some "d", 4, 14, 3⟩, ⟨some "e", 5, 15, 4⟩] ∧
    (cg_http_persistentconnection_put "f" 6 16 6 true true
      (run 64 initialState (fillOps ++ [.put "a" 1 11 5 true true]))).2.cache =
      some [⟨some "b", 2, 12, 1⟩, ⟨some "c", 3, 13, 2⟩, ⟨some "d", 4, 14, 3⟩,
        ⟨some "e", 5, 15, 4⟩, ⟨some "f", 6, 16, 6⟩] ∧
    ¬ ((5 : CgSysTime) ≤ 1) := by
  decide

/-- C7 (idle-timeout postcondition of lookup): for every width of the clock,
every state, key and clock reading `t` taken on entry of a lookup, the clock
not running backwards up to the reading `now` taken on a hit, every entry that
the store holds when the lookup returns, hit or miss, has a timestamp `ts`
with `t ≤ ts + 60`. -/
theorem get_idle_timeout (bits : Nat) (s : State) (h : String) (p : Int)
    (t now : CgSysTime)
    (l : CgHttpPersistentConnectionList) (node : CgHttpPersistentConnection)
    (hclock : t ≤ now)
    (hc : (cg_http_persistentconnection_get bits h p t now s).2.cache = some l)
    (hmem : node ∈ l) :
    t ≤ node.timestamp + 60 := by
  have hkept : ∀ (l0 : CgHttpPersistentConnectionList), ∀ x ∈ unexpired bits t l0,
      t ≤ x.timestamp + 60 := fun l0 x hx =>
    le_of_expired_false bits t x (by simpa using (List.mem_filter.mp hx).2)
  cases hc0 : s.cache with
  | none =>
    rw [get_absent bits h p t now hc0, hc0] at hc
    cases hc
  | some l0 =>
    cases hs : cg_list_scan (sameKey h p) (unexpired bits t l0) with
    | none =>
      rw [get_miss bits h p t now hc0 hs] at hc
      simp only [Option.some.injEq] at hc
      subst hc
      exact hkept l0 node hmem
    | some r =>
      obtain ⟨b, n, a⟩ := r
      rw [get_hit bits h p t now hc0 hs] at hc
      obtain ⟨hl, -, -⟩ := cg_list_scan_some hs
      simp only [Option.some.injEq] at hc
      subst hc
      simp only [cg_list_add, cg_list_remove, List.mem_append, List.mem_singleton] at hmem
      rcases hmem with hmem | rfl
      · exact hkept l0 node (by rw [hl]; exact mem_of_mem_split (List.mem_append.mpr hmem))
      · exact Int.le_trans hclock (Int.le_add_of_nonneg_right (by decide))

/-- C7 at a concrete input: a lookup of `("c", 3)` at clock reading 62 on the
store of `fillOps`, whose entries have the timestamps 0 to 4. -/
theorem get_idle_timeout_witness :
    (cg_http_persistentconnection_get 64 "c" 3 62 62
      (run 64 initialState fillOps)).2.cache =
      some [⟨some "d", 4, 14, 3⟩, ⟨some "e", 5, 15, 4⟩, ⟨some "c", 3, 13, 62⟩] ∧
    (62 : CgSysTime) ≤
      (⟨some "d", 4, 14, 3⟩ : CgHttpPersistentConnection).timestamp + 60 :=
  ⟨by decide,
    get_idle_timeout 64 (run 64 initialState fillOps) "c" 3 62 62
      [⟨some "d", 4, 14, 3⟩, ⟨some "e", 5, 15, 4⟩, ⟨some "c", 3, 13, 62⟩]
      ⟨some "d", 4, 14, 3⟩ (by decide) (by decide) (by decide)⟩

/-- C8, as stated, fails: on the reachable store that holds the handle 7 for
`("x", 9)` since clock reading 0, `put("a", 1, 7)` at clock reading 0 stores
the entry, and `lookup("a", 1)` at clock reading 61 returns `NULL` having
passed the handle 7 to the destructor twice, once for each expired entry that
holds it. -/
theorem shared_handle_destroyed_twice :
    (run 64 initialState [.init true true, .put "x" 9 7 0 true true]).cache =
      some [⟨some "x", 9, 7, 0⟩] ∧
    (7 : Nat) ≠ NULL ∧ (61 : Int) > 0 + 60 ∧
    cg_http_persistentconnection_put "a" 1 7 0 true true
        (run 64 initialState [.init true true, .put "x" 9 7 0 true true]) =
      (TRUE, { cache := some [⟨some "x", 9, 7, 0⟩, ⟨some "a", 1, 7, 0⟩],
               persistent_connection_mutex := some false, destroyed := [] }) ∧
    cg_http_persistentconnection_get 64 "a" 1 61 61
        (cg_http_persistentconnection_put "a" 1 7 0 true true
          (run 64 initialState [.init true true, .put "x" 9 7 0 true true])).2 =
      (NULL, { cache := some [], persistent_connection_mutex := some false,
               destroyed := [7, 7] }) ∧
    List.count 7 [7, 7] = 2 := by
  decide

/-- C8, amended (an expired entry is a miss and is destroyed once): for every
width of the clock, in every reachable state with a store, for every key
`(h, p)`, non-null handle `d` that no entry of the store holds under another
key, and clock readings `t0` and `t > t0 + 60`, if `put(h, p, d)` at `t0`
returns `TRUE` and `lookup(h, p)` at `t` is the next call, the lookup returns
`NULL`, the store it leaves has no entry for `(h, p)`, and the two calls pass
`d` to the destructor exactly once. -/
theorem expired_entry_miss_destroyed_once (bits : Nat) (ops : List Op)
    (l : CgHttpPersistentConnectionList) (h : String) (p : Int) (d : Nat)
    (t0 t now : CgSysTime) (allocOk hostOk : Bool)
    (hc : (run bits initialState ops).cache = some l) (hd : d ≠ NULL)
    (hshare : ∀ x ∈ l, x.cacheData = d → x.host = some h ∧ x.port = p)
    (hput : (cg_http_persistentconnection_put h p d t0 allocOk hostOk
      (run bits initialState ops)).1 = TRUE)
    (hexp : t > t0 + 60) :
    (cg_http_persistentconnection_get bits h p t now
      (cg_http_persistentconnection_put h p d t0 allocOk hostOk
        (run bits initialState ops)).2).1 = NULL ∧
    (∀ l', (cg_http_persistentconnection_get bits h p t now
        (cg_http_persistentconnection_put h p d t0 allocOk hostOk
          (run bits initialState ops)).2).2.cache = some l' →
      ∀ x ∈ l', ¬ (x.host = some h ∧ x.port = p)) ∧
    (cg_http_persistentconnection_get bits h p t now
      (cg_http_persistentconnection_put h p d t0 allocOk hostOk
        (run bits initialState ops)).2).2.destroyed.count d =
      (run bits initialState ops).destroyed.count d + 1 := by
  have hinv : StoreInv l := storeInv_of_run bits ops hc
  obtain ⟨b, a, ho, hshape, hothers, -⟩ :=
    put_nonnull_shape h p d t0 allocOk hostOk hc hinv.2.1 hd hput
  rw [hshape]
  have hexp' : expired bits t ⟨ho, p, d, t0⟩ = true := expired_of_gt bits t _ hexp
  have habs : ∀ x ∈ unexpired bits t
      (b ++ (⟨ho, p, d, t0⟩ : CgHttpPersistentConnection) :: a),
      key x ≠ (some h, p) := by
    intro x hx
    obtain ⟨hx1, hx2⟩ := List.mem_filter.mp hx
    simp only [List.mem_append, List.mem_cons] at hx1
    rcases hx1 with hx1 | rfl | hx1
    · exact (hothers x (List.mem_append.mpr (Or.inl hx1))).2
    · simp [hexp'] at hx2
    · exact (hothers x (List.mem_append.mpr (Or.inr hx1))).2
  have hdata : ∀ x ∈ b ++ a, x.cacheData ≠ d := fun x hx hxd =>
    (hothers x hx).2
      (sameKey_of_fields (hshare x (hothers x hx).1 hxd).1
        (hshare x (hothers x hx).1 hxd).2)
  rw [get_miss_of_absent bits h p t now rfl habs]
  refine ⟨rfl, ?_, ?_⟩
  · intro l' hl' x hx hkey
    simp only [Option.some.injEq] at hl'
    subst hl'
    exact habs x hx (sameKey_of_fields hkey.1 hkey.2)
  · simp only [sweptHandles_split bits t b a _ hexp', List.count_append,
      List.count_cons_self]
    rw [count_sweptHandles_eq_zero bits t d
        (fun x hx => hdata x (List.mem_append.mpr (Or.inl hx))),
      count_sweptHandles_eq_zero bits t d
        (fun x hx => hdata x (List.mem_append.mpr (Or.inr hx)))]

/-- C8, amended, at a concrete input: the store holds the handle 8 for
`("x", 9)` and already the handle 7 for `("a", 1)`; `put("a", 1, 7)` at clock
reading 5 and `lookup("a", 1)` at clock reading 66, on a clock of 64 bits. -/
theorem expired_entry_miss_destroyed_once_witness :
    (cg_http_persistentconnection_get 64 "a" 1 66 66
      (cg_http_persistentconnection_put "a" 1 7 5 true true
        (run 64 initialState
          [.init true true, .put "x" 9 8 0 true true,
           .put "a" 1 7 0 true true])).2).1 = NULL ∧
    (∀ l', (cg_http_persistentconnection_get 64 "a" 1 66 66
        (cg_http_persistentconnection_put "a" 1 7 5 true true
          (run 64 initialState
            [.init true true, .put "x" 9 8 0 true true,
             .put "a" 1 7 0 true true])).2).2.cache = some l' →
      ∀ x ∈ l', ¬ (x.host = some "a" ∧ x.port = 1)) ∧
    (cg_http_persistentconnection_get 64 "a" 1 66 66
      (cg_http_persistentconnection_put "a" 1 7 5 true true
        (run 64 initialState
          [.init true true, .put "x" 9 8 0 true true,
           .put "a" 1 7 0 true true])).2).2.destroyed.count 7 =
      (run 64 initialState
        [.init true true, .put "x" 9 8 0 true true,
         .put "a" 1 7 0 true true]).destroyed.count 7 + 1 :=
  expired_entry_miss_destroyed_once 64
    [.init true true, .put "x" 9 8 0 true true, .put "a" 1 7 0 true true]
    [⟨some "x", 9, 8, 0⟩, ⟨some "a", 1, 7, 0⟩] "a" 1 7 5 66 66 true true
    (by decide) (by decide) (by decide) (by decide) (by decide)

/-- C9 (deleting a cached key): for every width of the clock, in every
reachable state whose store holds an entry `node` with host `h`,
`put(h, node.port, NULL)` returns `TRUE`, leaves the store with exactly that
entry unlinked (the entries before and after it unchanged and in order),
appends the handle of `node` and nothing else to the destructor log, and a
lookup of the key that follows returns `NULL` at any clock reading. -/
theorem delete_cached_key (bits : Nat) (ops : List Op)
    (before after : CgHttpPersistentConnectionList)
    (node : CgHttpPersistentConnection) (h : String) (now : CgSysTime)
    (allocOk hostOk : Bool)
    (hc : (run bits initialState ops).cache = some (before ++ node :: after))
    (hhost : node.host = some h) :
    cg_http_persistentconnection_put h node.port NULL now allocOk hostOk
        (run bits initialState ops) =
      (TRUE, { run bits initialState ops with
        cache := some (before ++ after)
        destroyed := (run bits initialState ops).destroyed ++ [node.cacheData] }) ∧
    ∀ t now' : CgSysTime,
      (cg_http_persistentconnection_get bits h node.port t now'
        (cg_http_persistentconnection_put h node.port NULL now allocOk hostOk
          (run bits initialState ops)).2).1 = NULL := by
  have hinv : StoreInv (before ++ node :: after) := storeInv_of_run bits ops hc
  have hkey : key node = (some h, node.port) := sameKey_of_fields hhost rfl
  have hs := cg_list_scan_of_split hinv.2.1 hkey
  have hdata : ¬ node.cacheData = NULL := hinv.2.2 node (by simp)
  have hput : cg_http_persistentconnection_put h node.port NULL now allocOk hostOk
      (run bits initialState ops) =
      (TRUE, { run bits initialState ops with
        cache := some (before ++ after)
        destroyed := (run bits initialState ops).destroyed ++ [node.cacheData] }) := by
    rw [put_found h node.port NULL now allocOk hostOk hc hs, if_neg hdata]
    simp [putFinish, cg_list_remove, cg_http_persistentconnection_delete]
  refine ⟨hput, fun t now' => ?_⟩
  rw [hput]
  exact get_of_absent bits h node.port t now' rfl (others_not_key hinv.2.1 hkey)

/-- C9 at a concrete input: deleting `("c", 3)` from the store of `fillOps`. -/
theorem delete_cached_key_witness :
    cg_http_persistentconnection_put "c"
        (⟨some "c", 3, 13, 2⟩ : CgHttpPersistentConnection).port NULL 9 true true
        (run 64 initialState fillOps) =
      (TRUE, { run 64 initialState fillOps with
        cache := some ([⟨some "a", 1, 11, 0⟩, ⟨some "b", 2, 12, 1⟩] ++
          [⟨some "d", 4, 14, 3⟩, ⟨some "e", 5, 15, 4⟩])
        destroyed := (run 64 initialState fillOps).destroyed ++
          [(⟨some "c", 3, 13, 2⟩ : CgHttpPersistentConnection).cacheData] }) ∧
    ∀ t now' : CgSysTime,
      (cg_http_persistentconnection_get 64 "c"
        (⟨some "c", 3, 13, 2⟩ : CgHttpPersistentConnection).port t now'
        (cg_http_persistentconnection_put "c"
          (⟨some "c", 3, 13, 2⟩ : CgHttpPersistentConnection).port NULL 9 true true
          (run 64 initialState fillOps)).2).1 = NULL :=
  delete_cached_key 64 fillOps [⟨some "a", 1, 11, 0⟩, ⟨some "b", 2, 12, 1⟩]
    [⟨some "d", 4, 14, 3⟩, ⟨some "e", 5, 15, 4⟩] ⟨some "c", 3, 13, 2⟩ "c" 9 true true
    (by decide) rfl

/-- C10 (same-handle refresh): for every width of the clock, in every
reachable state whose store holds an entry `node` with host `h`,
`put(h, node.port, node.cacheData)` at clock reading `t` returns `TRUE` and
changes nothing but the timestamp of that entry, which becomes `t`: the
entries, their order, keys and handles, the lock and the destructor log are as
before. -/
theorem same_handle_refresh (bits : Nat) (ops : List Op)
    (before after : CgHttpPersistentConnectionList)
    (node : CgHttpPersistentConnection) (h : String) (t : CgSysTime)
    (allocOk hostOk : Bool)
    (hc : (run bits initialState ops).cache = some (before ++ node :: after))
    (hhost : node.host = some h) :
    cg_http_persistentconnection_put h node.port node.cacheData t allocOk hostOk
        (run bits initialState ops) =
      (TRUE, { run bits initialState ops with
        cache := some (before ++ { node with timestamp := t } :: after) }) := by
  have hinv : StoreInv (before ++ node :: after) := storeInv_of_run bits ops hc
  have hs := cg_list_scan_of_split hinv.2.1 (sameKey_of_fields hhost rfl)
  rw [put_found h node.port node.cacheData t allocOk hostOk hc hs, if_pos rfl]

/-- C10 at a concrete input: re-offering the handle 13 for `("c", 3)` at clock
reading 9 on the store of `fillOps`. -/
theorem same_handle_refresh_witness :
    cg_http_persistentconnection_put "c"
        (⟨some "c", 3, 13, 2⟩ : CgHttpPersistentConnection).port
        (⟨some "c", 3, 13, 2⟩ : CgHttpPersistentConnection).cacheData 9 true true
        (run 64 initialState fillOps) =
      (TRUE, { run 64 initialState fillOps with
        cache := some ([⟨some "a", 1, 11, 0⟩, ⟨some "b", 2, 12, 1⟩] ++
          { (⟨some "c", 3, 13, 2⟩ : CgHttpPersistentConnection) with timestamp := 9 } ::
            [⟨some "d", 4, 14, 3⟩, ⟨some "e", 5, 15, 4⟩]) }) :=
  same_handle_refresh 64 fillOps [⟨some "a", 1, 11, 0⟩, ⟨some "b", 2, 12, 1⟩]
    [⟨some "d", 4, 14, 3⟩, ⟨some "e", 5, 15, 4⟩] ⟨some "c", 3, 13, 2⟩ "c" 9 true true
    (by decide) rfl

/-! ## Failure, absence and life cycle -/

theorem cg_list_clear_eq (l : CgHttpPersistentConnectionList) (destroyed : List Nat) :
    cg_list_clear l destroyed =
      ([], destroyed ++ l.map (fun node => node.cacheData)) := by
  induction l generalizing destroyed with
  | nil => simp [cg_list_clear]
  | cons node rest ih =>
    simp [cg_list_clear, ih, cg_http_persistentconnection_delete]

theorem clear_eq {s : State} {l : CgHttpPersistentConnectionList}
    (hc : s.cache = some l) :
    cg_http_persistentconnection_clear s =
      { cache := none, persistent_connection_mutex := none,
        destroyed := s.destroyed ++ l.map (fun node => node.cacheData) } := by
  cases hm : s.persistent_connection_mutex <;>
    simp [cg_http_persistentconnection_clear, hc, hm, cg_list_clear_eq,
      cg_http_persistentconnection_lock, cg_http_persistentconnection_unlock]

theorem step_absent {s : State} (hc : s.cache = none) (op : Op)
    (hop : op.isInit = false) (bits : Nat) : step bits s op = s := by
  cases op with
  | init mutexOk cacheOk => simp [Op.isInit] at hop
  | get host port sys_time now =>
    simp only [step, get_absent bits host port sys_time now hc]
  | put host port data now allocOk hostOk =>
    simp only [step, put_absent host port data now allocOk hostOk hc]
  | clear => simp only [step, cg_http_persistentconnection_clear, hc]

theorem run_absent (bits : Nat) {s : State} (hc : s.cache = none) (ops : List Op)
    (hops : ∀ op ∈ ops, op.isInit = false) : run bits s ops = s := by
  induction ops with
  | nil => rfl
  | cons op ops ih =>
    have h1 : step bits s op = s :=
      step_absent hc op (hops op (List.mem_cons_self _ _)) bits
    have h2 := ih (fun o ho => hops o (List.mem_cons_of_mem _ ho))
    simpa [run, h1] using h2

/-- C12 (put fails only for an absent store or a failed allocation, and
failure is atomic): in every state, `put(h, p, d)` returns `FALSE` exactly
when the store is absent, or the store exists, holds no entry for `(h, p)`,
holds fewer than 5 entries, `d` is not `NULL` and the allocation of the node
fails, whatever the outcome of the allocation of its string; and whenever it
returns `FALSE` the state, destructor log included, is the one before the
call. -/
theorem put_failure_iff (s : State) (h : String) (p : Int) (d : Nat)
    (t : CgSysTime) (allocOk hostOk : Bool) :
    ((cg_http_persistentconnection_put h p d t allocOk hostOk s).1 = FALSE ↔
      (s.cache = none ∨
        ∃ l, s.cache = some l ∧ (∀ x ∈ l, ¬ (x.host = some h ∧ x.port = p)) ∧
          cg_list_size l < 5 ∧ d ≠ NULL ∧ allocOk = false)) ∧
    ((cg_http_persistentconnection_put h p d t allocOk hostOk s).1 = FALSE →
      (cg_http_persistentconnection_put h p d t allocOk hostOk s).2 = s) := by
  cases hc : s.cache with
  | none =>
    rw [put_absent h p d t allocOk hostOk hc]
    simp
  | some l =>
    by_cases hfail : (∀ x ∈ l, ¬ (x.host = some h ∧ x.port = p)) ∧
        cg_list_size l < 5 ∧ d ≠ NULL ∧ allocOk = false
    · obtain ⟨hfresh, hlen, hd, rfl⟩ := hfail
      rw [put_alloc_failure h p d t hostOk hc hfresh hlen hd]
      exact ⟨⟨fun _ => Or.inr ⟨l, rfl, hfresh, hlen, hd, rfl⟩, fun _ => rfl⟩,
        fun _ => rfl⟩
    · have htrue := put_fst_of_store h p d t allocOk hostOk hc hfail
      have hne : ¬ (cg_http_persistentconnection_put h p d t allocOk hostOk s).1 = FALSE := by
        rw [htrue]; decide
      refine ⟨⟨fun hf => absurd hf hne, ?_⟩, fun hf => absurd hf hne⟩
      rintro (hnone | ⟨l', hl', hrest⟩)
      · cases hnone
      · simp only [Option.some.injEq] at hl'
        subst hl'
        exact absurd hrest hfail

/-- C13 (clear destroys everything and returns to the uninitialised state): in
every state whose store exists with entries `l`, clear passes the handle of
each entry of `l`, in order and once per entry, to the destructor and nothing
else, and leaves neither store nor lock; from then on, as long as
initialize is not called, every call leaves that state as it is, every lookup
returns `NULL` and every put returns `FALSE`. -/
theorem clear_destroys_everything (bits : Nat) (s : State)
    (l : CgHttpPersistentConnectionList) (hc : s.cache = some l) :
    cg_http_persistentconnection_clear s =
      { cache := none, persistent_connection_mutex := none,
        destroyed := s.destroyed ++ l.map (fun node => node.cacheData) } ∧
    (∀ ops : List Op, (∀ op ∈ ops, op.isInit = false) →
      run bits (cg_http_persistentconnection_clear s) ops =
        cg_http_persistentconnection_clear s) ∧
    (∀ (h : String) (p : Int) (t now : CgSysTime),
      cg_http_persistentconnection_get bits h p t now
          (cg_http_persistentconnection_clear s) =
        (NULL, cg_http_persistentconnection_clear s)) ∧
    (∀ (h : String) (p : Int) (d : Nat) (t : CgSysTime) (allocOk hostOk : Bool),
      cg_http_persistentconnection_put h p d t allocOk hostOk
          (cg_http_persistentconnection_clear s) =
        (FALSE, cg_http_persistentconnection_clear s)) := by
  have hnone : (cg_http_persistentconnection_clear s).cache = none := by
    rw [clear_eq hc]
  exact ⟨clear_eq hc, fun ops hops => run_absent bits hnone ops hops,
    fun h p t now => get_absent bits h p t now hnone,
    fun h p d t allocOk hostOk => put_absent h p d t allocOk hostOk hnone⟩

/-- C13 at a concrete input: clearing the store of `fillOps`. -/
theorem clear_destroys_everything_witness :
    cg_http_persistentconnection_clear (run 64 initialState fillOps) =
      { cache := none, persistent_connection_mutex := none,
        destroyed := (run 64 initialState fillOps).destroyed ++
          fullStore.map (fun node => node.cacheData) } ∧
    (∀ ops : List Op, (∀ op ∈ ops, op.isInit = false) →
      run 64 (cg_http_persistentconnection_clear (run 64 initialState fillOps)) ops =
        cg_http_persistentconnection_clear (run 64 initialState fillOps)) ∧
    (∀ (h : String) (p : Int) (t now : CgSysTime),
      cg_http_persistentconnection_get 64 h p t now
          (cg_http_persistentconnection_clear (run 64 initialState fillOps)) =
        (NULL, cg_http_persistentconnection_clear (run 64 initialState fillOps))) ∧
    (∀ (h : String) (p : Int) (d : Nat) (t : CgSysTime) (allocOk hostOk : Bool),
      cg_http_persistentconnection_put h p d t allocOk hostOk
          (cg_http_persistentconnection_clear (run 64 initialState fillOps)) =
        (FALSE, cg_http_persistentconnection_clear (run 64 initialState fillOps))) :=
  clear_destroys_everything 64 (run 64 initialState fillOps) fullStore (by decide)

/-- C14 (lookup on an absent cache): in every state without a store, never
initialised or cleared, `lookup(h, p)` returns `NULL` for every host, port
and clock readings, and leaves the state, with its absent store, its lock and
its destructor log, as it is. -/
theorem get_on_absent_cache (bits : Nat) (s : State) (h : String) (p : Int)
    (t now : CgSysTime) (hc : s.cache = none) :
    cg_http_persistentconnection_get bits h p t now s = (NULL, s) :=
  get_absent bits h p t now hc

/-- C14 at concrete inputs: the state before any call, and the state left by
clearing the store of `fillOps`. -/
theorem get_on_absent_cache_witness :
    cg_http_persistentconnection_get 64 "a" 1 0 0 initialState =
      (NULL, initialState) ∧
    cg_http_persistentconnection_get 64 "a" 1 5 5
        (run 64 initialState (fillOps ++ [.clear])) =
      (NULL, run 64 initialState (fillOps ++ [.clear])) :=
  ⟨get_on_absent_cache 64 initialState "a" 1 0 0 (by decide),
   get_on_absent_cache 64 (run 64 initialState (fillOps ++ [.clear])) "a" 1 5 5
     (by decide)⟩

/-- C15 (initialize is idempotent): in every state whose store exists,
initialize returns `TRUE` and leaves the state, so the entries with their
order, handles and timestamps, the lock and the destructor log, as it is,
whatever the outcome an allocation would have: none is made. -/
theorem init_idempotent (s : State) (l : CgHttpPersistentConnectionList)
    (mutexOk cacheOk : Bool) (hc : s.cache = some l) :
    cg_http_persistentconnection_init mutexOk cacheOk s = (TRUE, s) := by
  simp only [cg_http_persistentconnection_init, hc]

/-- C15 at a concrete input: initialising again on the store of `fillOps`,
with allocations that would fail. -/
theorem init_idempotent_witness :
    cg_http_persistentconnection_init false false (run 64 initialState fillOps) =
      (TRUE, run 64 initialState fillOps) :=
  init_idempotent (run 64 initialState fillOps) fullStore false false (by decide)

/-! ## Handles, recency and the sweep -/

/-- C16 (non-null handle invariant): for every width of the clock, in every
state reached from the initial state by any sequence of calls, puts of `NULL`
included, every entry of the store has a handle other than `NULL`; hence a
lookup that finds an entry for its key that the sweep keeps does not return
`NULL`. -/
theorem non_null_handle_invariant (bits : Nat) (ops : List Op)
    (l : CgHttpPersistentConnectionList)
    (hc : (run bits initialState ops).cache = some l) :
    (∀ node ∈ l, node.cacheData ≠ NULL) ∧
    ∀ (h : String) (p : Int) (t now : CgSysTime),
      (∃ node ∈ l, node.host = some h ∧ node.port = p ∧
        expired bits t node = false) →
      (cg_http_persistentconnection_get bits h p t now
        (run bits initialState ops)).1 ≠ NULL := by
  have hinv : StoreInv l := storeInv_of_run bits ops hc
  refine ⟨hinv.2.2, ?_⟩
  rintro h p t now ⟨node, hmem, hh, hp, ht⟩
  rw [get_of_mem bits h p t now hc hinv.2.1 hmem (sameKey_of_fields hh hp) ht]
  exact hinv.2.2 node hmem

/-- C16 at a concrete input: the store left by `fillOps` followed by a put of
`NULL` for a cached key. -/
theorem non_null_handle_invariant_witness :
    (∀ node ∈ [(⟨some "a", 1, 11, 0⟩ : CgHttpPersistentConnection),
        ⟨some "c", 3, 13, 2⟩, ⟨some "d", 4, 14, 3⟩, ⟨some "e", 5, 15, 4⟩],
      node.cacheData ≠ NULL) ∧
    ∀ (h : String) (p : Int) (t now : CgSysTime),
      (∃ node ∈ [(⟨some "a", 1, 11, 0⟩ : CgHttpPersistentConnection),
          ⟨some "c", 3, 13, 2⟩, ⟨some "d", 4, 14, 3⟩, ⟨some "e", 5, 15, 4⟩],
        node.host = some h ∧ node.port = p ∧ expired 64 t node = false) →
      (cg_http_persistentconnection_get 64 h p t now
        (run 64 initialState (fillOps ++ [.put "b" 2 NULL 5 true true]))).1 ≠ NULL :=
  non_null_handle_invariant 64 (fillOps ++ [.put "b" 2 NULL 5 true true])
    [⟨some "a", 1, 11, 0⟩, ⟨some "c", 3, 13, 2⟩, ⟨some "d", 4, 14, 3⟩,
      ⟨some "e", 5, 15, 4⟩] (by decide)

/-- C17 (a lookup hit refreshes recency): for every width of the clock, in
every reachable state with store `l` and for every clock reading `t` taken on
entry, if the entries of `l` that the sweep at `t` keeps are `before`, `node`,
`after` in this order and `node` has the host `h`, then
`lookup(h, node.port)` returns the handle of `node` and leaves the store
`before ++ after` followed by `node` with its timestamp set to the clock
reading `now` taken on the hit; the other kept entries keep their order, keys,
handles and timestamps, and the expired ones have been destroyed. -/
theorem get_hit_refreshes_recency (bits : Nat) (ops : List Op)
    (l before after : CgHttpPersistentConnectionList)
    (node : CgHttpPersistentConnection) (h : String) (t now : CgSysTime)
    (hc : (run bits initialState ops).cache = some l)
    (hsplit : unexpired bits t l = before ++ node :: after)
    (hhost : node.host = some h) :
    cg_http_persistentconnection_get bits h node.port t now
        (run bits initialState ops) =
      (node.cacheData,
        { run bits initialState ops with
          cache := some (before ++ after ++ [{ node with timestamp := now }])
          destroyed := (run bits initialState ops).destroyed ++
            sweptHandles bits t l }) := by
  have hinv : StoreInv l := storeInv_of_run bits ops hc
  have hkeys : KeysDistinct (before ++ node :: after) := by
    rw [← hsplit]
    exact hinv.2.1.ofSublist (List.filter_sublist _)
  have hs : cg_list_scan (sameKey h node.port) (unexpired bits t l) =
      some (before, node, after) := by
    rw [hsplit]
    exact cg_list_scan_of_split hkeys (sameKey_of_fields hhost rfl)
  rw [get_hit bits h node.port t now hc hs]
  simp [cg_list_add, cg_list_remove]

/-- C17 at a concrete input: a lookup of `("d", 4)` at clock reading 62 on the
store of `fillOps`, whose entries for `"a"` and `"b"` are then expired. -/
theorem get_hit_refreshes_recency_witness :
    cg_http_persistentconnection_get 64 "d"
        (⟨some "d", 4, 14, 3⟩ : CgHttpPersistentConnection).port 62 63
        (run 64 initialState fillOps) =
      ((⟨some "d", 4, 14, 3⟩ : CgHttpPersistentConnection).cacheData,
        { run 64 initialState fillOps with
          cache := some ([⟨some "c", 3, 13, 2⟩] ++ [⟨some "e", 5, 15, 4⟩] ++
            [{ (⟨some "d", 4, 14, 3⟩ : CgHttpPersistentConnection) with
                timestamp := 63 }])
          destroyed := (run 64 initialState fillOps).destroyed ++
            sweptHandles 64 62 fullStore }) :=
  get_hit_refreshes_recency 64 fillOps fullStore [⟨some "c", 3, 13, 2⟩]
    [⟨some "e", 5, 15, 4⟩] ⟨some "d", 4, 14, 3⟩ "d" 62 63 (by decide) (by decide) rfl

/-- C18, as stated, fails: on a clock of 64 bits, for the entry stamped with
the largest clock value and a lookup at that same clock value, the age is 0
and the single pass of the specification keeps the entry, but the sum
`timestamp + 60` of the sweep loop wraps around and the loop removes the entry
and destroys its handle. -/
theorem sweep_differs_at_overflow :
    (9223372036854775807 : Int) ≤ 9223372036854775807 + 60 ∧
    sweepSpec 9223372036854775807 [⟨some "a", 1, 7, 9223372036854775807⟩] [] =
      ([⟨some "a", 1, 7, 9223372036854775807⟩], []) ∧
    sweep 64 9223372036854775807 [⟨some "a", 1, 7, 9223372036854775807⟩] [] =
      ([], [7]) := by
  decide

/-- C18, amended (the restart-on-removal sweep equals a single-pass filter):
for every width of the clock, every store whose timestamps are at least 60
below the largest clock value, every destructor log and clock reading `t`, the
sweep loop of lookup ends within as many removals as there are entries and
with a scan that meets no expired entry, whatever larger bound on the rounds
it is given, and its result is the one of the single pass of the
specification: the entries with `t ≤ timestamp + 60` stay, in their order, and
the handle of each other entry goes once to the destructor. -/
theorem sweep_eq_sweepSpec (bits : Nat) (t : CgSysTime)
    (l : CgHttpPersistentConnectionList) (destroyed : List Nat)
    (hrange : ∀ node ∈ l, node.timestamp + 60 ≤ CgSysTime.maxValue bits) :
    sweep bits t l destroyed = sweepSpec t l destroyed ∧
    (∀ fuel, l.length ≤ fuel →
      sweepLoop bits fuel t l destroyed = sweepSpec t l destroyed) ∧
    cg_list_scan (expired bits t) (sweep bits t l destroyed).1 = none := by
  have hexp : ∀ node ∈ l, expired bits t node = decide (¬ t ≤ node.timestamp + 60) := by
    intro node hnode
    simp only [expired, timeoutDeadline_eq bits node.timestamp (hrange node hnode),
      gt_iff_lt, not_le]
  have hspec : sweepSpec t l destroyed =
      (l.filter (fun node => !expired bits t node),
       destroyed ++ (l.filter (expired bits t)).map (fun node => node.cacheData)) := by
    have h1 : l.filter (fun node => decide (t ≤ node.timestamp + 60)) =
        l.filter (fun node => !expired bits t node) :=
      List.filter_congr (fun node hnode => by
        rw [hexp node hnode, decide_not, Bool.not_not])
    have h2 : l.filter (fun node => decide (¬ t ≤ node.timestamp + 60)) =
        l.filter (expired bits t) :=
      List.filter_congr (fun node hnode => (hexp node hnode).symm)
    simp only [sweepSpec, h1, h2]
  refine ⟨?_, ?_, ?_⟩
  · rw [hspec, sweep_eq_filter]
  · intro fuel hfuel
    rw [hspec, sweepLoop_eq_filter bits t fuel l destroyed hfuel]
  · rw [sweep_eq_filter, cg_list_scan_none]
    intro x hx
    simpa using (List.mem_filter.mp hx).2

/-- C18, amended, at a concrete input: on a clock of 64 bits, a sweep at clock
reading 61 of an entry stamped 0, of age 61, and an entry stamped 1, of age
60: the first is removed and its handle destroyed, the second is kept. -/
theorem sweep_eq_sweepSpec_witness :
    (sweep 64 61 [⟨some "a", 1, 11, 0⟩, ⟨some "b", 2, 12, 1⟩] [] =
        sweepSpec 61 [⟨some "a", 1, 11, 0⟩, ⟨some "b", 2, 12, 1⟩] [] ∧
      (∀ fuel, [(⟨some "a", 1, 11, 0⟩ : CgHttpPersistentConnection),
          ⟨some "b", 2, 12, 1⟩].length ≤ fuel →
        sweepLoop 64 fuel 61 [⟨some "a", 1, 11, 0⟩, ⟨some "b", 2, 12, 1⟩] [] =
          sweepSpec 61 [⟨some "a", 1, 11, 0⟩, ⟨some "b", 2, 12, 1⟩] []) ∧
      cg_list_scan (expired 64 61)
        (sweep 64 61 [⟨some "a", 1, 11, 0⟩, ⟨some "b", 2, 12, 1⟩] []).1 = none) ∧
    sweep 64 61 [⟨some "a", 1, 11, 0⟩, ⟨some "b", 2, 12, 1⟩] [] =
      ([⟨some "b", 2, 12, 1⟩], [11]) :=
  ⟨sweep_eq_sweepSpec 64 61 [⟨some "a", 1, 11, 0⟩, ⟨some "b", 2, 12, 1⟩] []
    (by decide), by decide⟩

/-- C19 (replacing the handle of a cached key): for every width of the clock,
in every reachable state whose store holds an entry `node` with host `h`, for
every handle `d` other than `NULL` and other than the handle of `node`,
`put(h, node.port, d)` at clock reading `t` returns `TRUE` and leaves the
store with `node` unlinked and the entry `(h, node.port, d, t)` appended last;
the number of entries is the same, also when it is 5, and the other entries
keep their order and contents. -/
theorem replace_cached_handle (bits : Nat) (ops : List Op)
    (before after : CgHttpPersistentConnectionList)
    (node : CgHttpPersistentConnection) (h : String) (d : Nat) (t : CgSysTime)
    (allocOk hostOk : Bool)
    (hc : (run bits initialState ops).cache = some (before ++ node :: after))
    (hhost : node.host = some h)
    (hd : d ≠ NULL) (hne : d ≠ node.cacheData) :
    cg_http_persistentconnection_put h node.port d t allocOk hostOk
        (run bits initialState ops) =
      (TRUE, { run bits initialState ops with
        cache := some (before ++ after ++
          [⟨some h, node.port, d, t⟩]) }) ∧
    cg_list_size (before ++ after ++
        [(⟨some h, node.port, d, t⟩ : CgHttpPersistentConnection)]) =
      cg_list_size (before ++ node :: after) := by
  have hinv : StoreInv (before ++ node :: after) := storeInv_of_run bits ops hc
  have hs := cg_list_scan_of_split hinv.2.1 (sameKey_of_fields hhost rfl)
  have hne' : ¬ node.cacheData = d := fun h => hne h.symm
  refine ⟨?_, by simp [cg_list_size]⟩
  rw [put_found h node.port d t allocOk hostOk hc hs, if_neg hne']
  simp [putFinish, hd, cg_list_add, cg_list_remove, hhost, cg_string_setvalue]

/-- C19 at a concrete input: replacing the handle 12 of `("b", 2)` by 22 at
clock reading 9 on the full store of `fillOps`. -/
theorem replace_cached_handle_witness :
    cg_http_persistentconnection_put "b"
        (⟨some "b", 2, 12, 1⟩ : CgHttpPersistentConnection).port 22 9 false false
        (run 64 initialState fillOps) =
      (TRUE, { run 64 initialState fillOps with
        cache := some ([⟨some "a", 1, 11, 0⟩] ++
          [⟨some "c", 3, 13, 2⟩, ⟨some "d", 4, 14, 3⟩, ⟨some "e", 5, 15, 4⟩] ++
          [⟨some "b", (⟨some "b", 2, 12, 1⟩ : CgHttpPersistentConnection).port,
            22, 9⟩]) }) ∧
    cg_list_size ([(⟨some "a", 1, 11, 0⟩ : CgHttpPersistentConnection)] ++
        [⟨some "c", 3, 13, 2⟩, ⟨some "d", 4, 14, 3⟩, ⟨some "e", 5, 15, 4⟩] ++
        [⟨some "b", (⟨some "b", 2, 12, 1⟩ : CgHttpPersistentConnection).port,
          22, 9⟩]) =
      cg_list_size ([(⟨some "a", 1, 11, 0⟩ : CgHttpPersistentConnection)] ++
        ⟨some "b", 2, 12, 1⟩ ::
          [⟨some "c", 3, 13, 2⟩, ⟨some "d", 4, 14, 3⟩, ⟨some "e", 5, 15, 4⟩]) :=
  replace_cached_handle 64 fillOps [⟨some "a", 1, 11, 0⟩]
    [⟨some "c", 3, 13, 2⟩, ⟨some "d", 4, 14, 3⟩, ⟨some "e", 5, 15, 4⟩]
    ⟨some "b", 2, 12, 1⟩ "b" 22 9 false false (by decide) rfl (by decide) (by decide)

/-! ## Destroyed handles and the store -/

theorem destroyedBy_self (s s' : State) (h : s'.destroyed = s.destroyed) :
    destroyedBy s s' = [] := by
  simp [destroyedBy, h]

theorem destroyedBy_append (s s' : State) (added : List Nat)
    (h : s'.destroyed = s.destroyed ++ added) : destroyedBy s s' = added := by
  simp [destroyedBy, h]

theorem not_mem_of_nodup_split {β : Type} (f : CgHttpPersistentConnection → β)
    {before after : CgHttpPersistentConnectionList}
    {node : CgHttpPersistentConnection}
    (hnodup : ((before ++ node :: after).map f).Nodup) :
    f node ∉ (before ++ after).map f := by
  simp only [List.map_append, List.map_cons] at hnodup ⊢
  exact (List.nodup_cons.mp (List.nodup_middle.mp hnodup)).1

/-- A lookup returns `NULL` or a handle held by the store it was called on. -/
theorem get_fst_held (bits : Nat) (host : String) (port : Int)
    (sys_time now : CgSysTime) (s : State) :
    (cg_http_persistentconnection_get bits host port sys_time now s).1 = NULL ∨
    (cg_http_persistentconnection_get bits host port sys_time now s).1 ∈ heldHandles s := by
  cases hc : s.cache with
  | none => left; rw [get_absent bits host port sys_time now hc]
  | some l =>
    cases hs : cg_list_scan (sameKey host port) (unexpired bits sys_time l) with
    | none => left; rw [get_miss bits host port sys_time now hc hs]
    | some r =>
      obtain ⟨b, n, a⟩ := r
      right
      rw [get_hit bits host port sys_time now hc hs]
      obtain ⟨hl, -, -⟩ := cg_list_scan_some hs
      have hn : n ∈ unexpired bits sys_time l := by rw [hl]; simp
      simp only [heldHandles, hc]
      exact List.mem_map_of_mem _ (List.mem_of_mem_filter hn)

theorem swept_not_kept (bits : Nat) (t : CgSysTime) {l : CgHttpPersistentConnectionList}
    (hnodup : (l.map (fun node => node.cacheData)).Nodup) :
    ∀ d ∈ sweptHandles bits t l, d ∉ (unexpired bits t l).map (fun node => node.cacheData) := by
  intro d hd hd'
  obtain ⟨x, hx, rfl⟩ := List.mem_map.mp hd
  obtain ⟨y, hy, hxy⟩ := List.mem_map.mp hd'
  obtain ⟨hxl, hxe⟩ := List.mem_filter.mp hx
  obtain ⟨hyl, hye⟩ := List.mem_filter.mp hy
  have heq : y = x := List.inj_on_of_nodup_map hnodup hyl hxl hxy
  subst heq
  simp [hxe] at hye

theorem get_destroyed_not_held (bits : Nat) (host : String) (port : Int)
    (sys_time now : CgSysTime) (s : State) (hnodup : (heldHandles s).Nodup) :
    ∀ d ∈ destroyedBy s (cg_http_persistentconnection_get bits host port sys_time now s).2,
      d ∉ heldHandles (cg_http_persistentconnection_get bits host port sys_time now s).2 := by
  cases hc : s.cache with
  | none =>
    rw [get_absent bits host port sys_time now hc]
    simp [destroyedBy]
  | some l =>
    simp only [heldHandles, hc] at hnodup
    have hkept := swept_not_kept bits sys_time hnodup
    cases hs : cg_list_scan (sameKey host port) (unexpired bits sys_time l) with
    | none =>
      rw [get_miss bits host port sys_time now hc hs]
      rw [destroyedBy_append s _ (sweptHandles bits sys_time l) rfl]
      simpa [heldHandles] using hkept
    | some r =>
      obtain ⟨b, n, a⟩ := r
      rw [get_hit bits host port sys_time now hc hs]
      rw [destroyedBy_append s _ (sweptHandles bits sys_time l) rfl]
      obtain ⟨hl, -, -⟩ := cg_list_scan_some hs
      rw [hl] at hkept
      intro d hd hheld
      apply hkept d hd
      simp only [heldHandles, cg_list_add, cg_list_remove, List.map_append,
        List.map_cons, List.map_nil, List.mem_append, List.mem_singleton,
        List.mem_cons] at hheld ⊢
      tauto

theorem putFinish_destroyed_not_held (host : String) (port : Int) (data : Nat)
    (now : CgSysTime) (l : CgHttpPersistentConnectionList)
    (new_node : CgHttpPersistentConnection) (s : State)
    (hnot : new_node.cacheData ∉ l.map (fun node => node.cacheData)) :
    ∀ d ∈ destroyedBy s (putFinish host port data now l new_node s).2,
      d ∉ heldHandles (putFinish host port data now l new_node s).2 := by
  unfold putFinish
  by_cases hd : data = NULL
  · simp only [hd, ne_eq, not_true_eq_false, if_false]
    rw [destroyedBy_append s _ [new_node.cacheData] rfl]
    intro d hmem
    rw [List.mem_singleton.mp hmem]
    simpa [heldHandles] using hnot
  · simp only [ne_eq, hd, not_false_eq_true, if_true]
    simp [destroyedBy]

theorem put_destroyed_not_held (host : String) (port : Int) (data : Nat)
    (now : CgSysTime) (allocOk hostOk : Bool) (s : State)
    (hnodup : (heldHandles s).Nodup) :
    ∀ d ∈ destroyedBy s (cg_http_persistentconnection_put host port data now allocOk hostOk s).2,
      d ∉ heldHandles (cg_http_persistentconnection_put host port data now allocOk hostOk s).2 := by
  cases hc : s.cache with
  | none =>
    rw [put_absent host port data now allocOk hostOk hc]
    simp [destroyedBy]
  | some l =>
    simp only [heldHandles, hc] at hnodup
    cases hs : cg_list_scan (sameKey host port) l with
    | some r =>
      obtain ⟨b, n, a⟩ := r
      rw [put_found host port data now allocOk hostOk hc hs]
      obtain ⟨hl, -, -⟩ := cg_list_scan_some hs
      rw [hl] at hnodup
      split
      · simp [destroyedBy]
      · exact putFinish_destroyed_not_held host port data now _ n s
          (not_mem_of_nodup_split _ hnodup)
    | none =>
      by_cases hlen : CG_HTTP_PERSISTENT_CACHE_SIZE ≤ l.length
      · cases l with
        | nil => simp [CG_HTTP_PERSISTENT_CACHE_SIZE] at hlen
        | cons first rest =>
          rw [put_full host port data now allocOk hostOk hc hs hlen]
          exact putFinish_destroyed_not_held host port data now rest first s
            (List.nodup_cons.mp hnodup).1
      · rw [put_room host port data now allocOk hostOk hc hs (Nat.lt_of_not_le hlen)]
        unfold putNew
        by_cases hd : data = NULL
        · rw [if_pos hd]
          simp [destroyedBy]
        · rw [if_neg hd]
          cases allocOk
          · simp [cg_http_persistentconnection_new, destroyedBy]
          · simp only [cg_http_persistentconnection_new, if_true]
            unfold putFinish
            rw [if_pos hd]
            simp [destroyedBy]

/-- C20 (no destroyed handle stays cached): for every width of the clock, in
every reachable state whose
entries hold pairwise distinct handles, after any single call, a lookup or a
put in particular, no handle that the call passed to the destructor is held by
an entry of the store; hence a lookup that follows and returns a handle (not
`NULL`) does not return one that the call destroyed. -/
theorem destroyed_handle_not_cached (bits : Nat) (ops : List Op) (op : Op)
    (hdistinct : (heldHandles (run bits initialState ops)).Nodup) :
    (∀ d ∈ destroyedBy (run bits initialState ops) (step bits (run bits initialState ops) op),
      d ∉ heldHandles (step bits (run bits initialState ops) op)) ∧
    ∀ (h : String) (p : Int) (t now : CgSysTime),
      (cg_http_persistentconnection_get bits h p t now
        (step bits (run bits initialState ops) op)).1 ≠ NULL →
      (cg_http_persistentconnection_get bits h p t now
        (step bits (run bits initialState ops) op)).1 ∉
          destroyedBy (run bits initialState ops) (step bits (run bits initialState ops) op) := by
  have hmain : ∀ d ∈ destroyedBy (run bits initialState ops) (step bits (run bits initialState ops) op),
      d ∉ heldHandles (step bits (run bits initialState ops) op) := by
    cases op with
    | init mutexOk cacheOk =>
      have hlog : (step bits (run bits initialState ops) (.init mutexOk cacheOk)).destroyed =
          (run bits initialState ops).destroyed := by
        simp only [step, cg_http_persistentconnection_init]
        cases (run bits initialState ops).cache <;> cases mutexOk <;> cases cacheOk <;>
          simp [cg_http_persistentconnection_lock, cg_http_persistentconnection_unlock]
      rw [destroyedBy_self _ _ hlog]
      simp
    | get host port sys_time now =>
      exact get_destroyed_not_held bits host port sys_time now _ hdistinct
    | put host port data now allocOk hostOk =>
      exact put_destroyed_not_held host port data now allocOk hostOk _ hdistinct
    | clear =>
      cases hc : (run bits initialState ops).cache with
      | none =>
        have : step bits (run bits initialState ops) .clear = run bits initialState ops := by
          simp only [step, cg_http_persistentconnection_clear, hc]
        rw [this]
        simp [destroyedBy]
      | some l =>
        simp only [step, clear_eq hc]
        simp [heldHandles]
  refine ⟨hmain, fun h p t now hne hmem => ?_⟩
  rcases get_fst_held bits h p t now (step bits (run bits initialState ops) op) with hnull | hheld
  · exact hne hnull
  · exact hmain _ hmem hheld

/-- C20 at a concrete input: a lookup at clock reading 62 on the store of
`fillOps`, which destroys the handles 11 and 12 of the expired entries. -/
theorem destroyed_handle_not_cached_witness :
    (∀ d ∈ destroyedBy (run 64 initialState fillOps)
        (step 64 (run 64 initialState fillOps) (.get "d" 4 62 62)),
      d ∉ heldHandles (step 64 (run 64 initialState fillOps) (.get "d" 4 62 62))) ∧
    ∀ (h : String) (p : Int) (t now : CgSysTime),
      (cg_http_persistentconnection_get 64 h p t now
        (step 64 (run 64 initialState fillOps) (.get "d" 4 62 62))).1 ≠ NULL →
      (cg_http_persistentconnection_get 64 h p t now
        (step 64 (run 64 initialState fillOps) (.get "d" 4 62 62))).1 ∉
          destroyedBy (run 64 initialState fillOps)
            (step 64 (run 64 initialState fillOps) (.get "d" 4 62 62)) :=
  destroyed_handle_not_cached 64 fillOps (.get "d" 4 62 62) (by decide)

/-! ## Successive insertions -/

/-- A put of a non-`NULL` handle for a key that the store does not hold
appends its entry, after unlinking the first entry when the store is full;
the allocations matter only when the store is not full, and the reused node
carries the host only if it has a string object. -/
theorem put_fresh_key (bits : Nat) (c : PutCall) {s : State}
    {l : CgHttpPersistentConnectionList} (hc : s.cache = some l)
    (hlen : l.length ≤ 5) (hhosts : ∀ x ∈ l, x.host ≠ none)
    (hfresh : ∀ x ∈ l, key x ≠ (some c.host, c.port))
    (hd : c.data ≠ NULL)
    (halloc : l.length < 5 → c.allocOk = true ∧ c.hostOk = true) :
    (step bits s c.op).cache = some ((l ++ [c.entry]).drop (l.length + 1 - 5)) := by
  have hs : cg_list_scan (sameKey c.host c.port) l = none := cg_list_scan_absent hfresh
  simp only [step, PutCall.op]
  by_cases hfull : CG_HTTP_PERSISTENT_CACHE_SIZE ≤ l.length
  · have h5 : l.length = 5 := Nat.le_antisymm hlen hfull
    cases l with
    | nil => simp at h5
    | cons first rest =>
      rw [put_full c.host c.port c.data c.now c.allocOk c.hostOk hc hs hfull]
      simp only [List.length_cons] at h5
      have hk : (first :: rest).length + 1 - 5 = 1 := by
        simp only [List.length_cons]; omega
      rw [hk]
      have hfirst := hhosts first (List.mem_cons_self _ _)
      cases hf : first.host with
      | none => exact absurd hf hfirst
      | some v =>
        simp [putFinish, hd, cg_list_add, PutCall.entry, hf, cg_string_setvalue]
  · have hlt : l.length < 5 := Nat.lt_of_not_le hfull
    rw [put_room c.host c.port c.data c.now c.allocOk c.hostOk hc hs hlt]
    have hk : l.length + 1 - 5 = 0 := by omega
    rw [hk]
    simp [putNew, putFinish, hd, (halloc hlt).1, (halloc hlt).2, cg_list_add,
      PutCall.entry, cg_http_persistentconnection_new, cg_string_new,
      cg_string_setvalue]

theorem run_puts (bits : Nat) (calls : List PutCall) :
    ∀ (s : State) (l : CgHttpPersistentConnectionList), s.cache = some l →
      l.length ≤ 5 → (∀ x ∈ l, x.host ≠ none) →
      (l.map key ++ calls.map (fun c => (some c.host, c.port))).Nodup →
      (∀ c ∈ calls, c.data ≠ NULL) →
      (∀ c ∈ calls.take (5 - l.length), c.allocOk = true ∧ c.hostOk = true) →
      (run bits s (calls.map PutCall.op)).cache =
        some ((l ++ calls.map PutCall.entry).drop (l.length + calls.length - 5)) := by
  induction calls with
  | nil =>
    intro s l hc hlen _ _ _ _
    have hk : l.length - 5 = 0 := by omega
    simp [run, hc, hk]
  | cons c cs ih =>
    intro s l hc hlen hhosts hnodup hdata halloc
    have hfresh : ∀ x ∈ l, key x ≠ (some c.host, c.port) := by
      intro x hx hkey
      have hdisj := (List.nodup_append.mp hnodup).2.2
      exact hdisj (List.mem_map_of_mem key hx) (by simp [hkey])
    have hallocc : l.length < 5 → c.allocOk = true ∧ c.hostOk = true := by
      intro hlt
      apply halloc c
      obtain ⟨k, hk⟩ : ∃ k, 5 - l.length = k + 1 := ⟨4 - l.length, by omega⟩
      rw [hk]
      simp
    have hstep := put_fresh_key bits c hc hlen hhosts hfresh
      (hdata c (List.mem_cons_self _ _)) hallocc
    have hsub : ((l ++ [c.entry]).drop (l.length + 1 - 5)).Sublist (l ++ [c.entry]) :=
      List.drop_sublist _ _
    have hlen' : ((l ++ [c.entry]).drop (l.length + 1 - 5)).length ≤ 5 := by
      simp only [List.length_drop, List.length_append, List.length_singleton]
      omega
    have hhosts' : ∀ x ∈ (l ++ [c.entry]).drop (l.length + 1 - 5), x.host ≠ none := by
      intro x hx
      rcases List.mem_append.mp (hsub.subset hx) with hx | hx
      · exact hhosts x hx
      · rw [List.mem_singleton.mp hx]
        simp [PutCall.entry]
    have hnodup' : (((l ++ [c.entry]).drop (l.length + 1 - 5)).map key ++
        cs.map (fun c => (some c.host, c.port))).Nodup := by
      refine hnodup.sublist ?_
      have h1 : (l.map key ++ (c :: cs).map (fun c => (some c.host, c.port))) =
          (l ++ [c.entry]).map key ++ cs.map (fun c => (some c.host, c.port)) := by
        simp [key, PutCall.entry]
      rw [h1]
      exact (hsub.map key).append (List.Sublist.refl _)
    have halloc' : ∀ c' ∈ cs.take (5 - ((l ++ [c.entry]).drop (l.length + 1 - 5)).length),
        c'.allocOk = true ∧ c'.hostOk = true := by
      intro c' hc'
      apply halloc c'
      simp only [List.length_drop, List.length_append, List.length_singleton] at hc'
      by_cases hlt : l.length < 5
      · obtain ⟨k, hk⟩ : ∃ k, 5 - l.length = k + 1 := ⟨4 - l.length, by omega⟩
        have hk' : 5 - (l.length + 1 - (l.length + 1 - 5)) = k := by omega
        rw [hk'] at hc'
        rw [hk, List.take_succ_cons]
        exact List.mem_cons_of_mem _ hc'
      · have hk' : 5 - (l.length + 1 - (l.length + 1 - 5)) = 0 := by omega
        rw [hk'] at hc'
        simp at hc'
    have hrec := ih (step bits s c.op) _ hstep hlen' hhosts' hnodup'
      (fun c' hc' => hdata c' (List.mem_cons_of_mem _ hc')) halloc'
    have hrun : run bits s ((c :: cs).map PutCall.op) =
        run bits (step bits s c.op) (cs.map PutCall.op) := by
      simp [run]
    rw [hrun, hrec]
    by_cases hlt : l.length < 5
    · have hk : l.length + 1 - 5 = 0 := by omega
      have hm : l.length + 1 + cs.length - 5 = l.length + (cs.length + 1) - 5 := by omega
      simp only [hk, List.drop_zero, List.length_append, List.length_singleton,
        List.map_cons, List.length_cons, List.append_assoc, List.singleton_append, hm]
      congr 2
    · have h5 : l.length = 5 := by omega
      cases l with
      | nil => simp at h5
      | cons first rest =>
        simp only [List.length_cons] at h5
        have hk : rest.length + 1 + 1 - 5 = 1 := by omega
        have h1 : rest.length + 1 + cs.length - 5 = cs.length := by omega
        have h2 : rest.length + 1 + (cs.length + 1) - 5 = cs.length + 1 := by omega
        simp only [List.length_cons, hk, List.cons_append, List.drop_succ_cons,
          List.drop_zero, List.length_append, List.length_singleton, List.map_cons,
          List.append_assoc, List.singleton_append, h1, h2]
        have h3 : rest.length + (([] : List CgHttpPersistentConnection).length + 1) +
            cs.length - 5 = cs.length := by
          simp only [List.length_nil]
          omega
        rw [h3, List.nil_append]

/-- C11, as stated, fails, at two inputs on the freshly initialised (empty)
store. One put of the non-null handle 7 whose node allocation fails leaves the
store empty. One put whose string allocation fails leaves an entry without
host. In both cases the store does not hold the entry `("a", 1, 7, 0)` of that
put. -/
theorem fifo_single_put_alloc_failures :
    (run 64 initialState [.init true true]).cache = some [] ∧ (7 : Nat) ≠ NULL ∧
    ([(⟨"a", 1, 7, 0, false, true⟩ : PutCall)].map PutCall.entry).drop (1 - 5) =
      [⟨some "a", 1, 7, 0⟩] ∧
    (run 64 (run 64 initialState [.init true true])
      ([(⟨"a", 1, 7, 0, false, true⟩ : PutCall)].map PutCall.op)).cache = some [] ∧
    (run 64 (run 64 initialState [.init true true])
      ([(⟨"a", 1, 7, 0, true, false⟩ : PutCall)].map PutCall.op)).cache =
        some [⟨none, 1, 7, 0⟩] := by
  decide

/-- C11, amended (FIFO eviction of untouched inserts): for every width of the
clock, from a state with an empty store, after `n` successive puts of pairwise
distinct keys with non-null handles, no other call in between, the
allocations (of a node and of its string) of each of the first `min(n, 5)`
puts not failing, the store holds exactly the entries of the last `min(n, 5)`
puts, in insertion order. -/
theorem fifo_eviction (bits : Nat) (s : State) (calls : List PutCall)
    (hc : s.cache = some [])
    (hkeys : (calls.map (fun c => (c.host, c.port))).Nodup)
    (hdata : ∀ c ∈ calls, c.data ≠ NULL)
    (halloc : ∀ c ∈ calls.take 5, c.allocOk = true ∧ c.hostOk = true) :
    (run bits s (calls.map PutCall.op)).cache =
      some ((calls.map PutCall.entry).drop (calls.length - 5)) := by
  have hkeys' : (calls.map (fun c => (some c.host, c.port))).Nodup := by
    have hinj : Function.Injective
        (fun k : String × Int => ((some k.1, k.2) : Option String × Int)) := by
      intro a b hab
      simp only [Prod.mk.injEq, Option.some.injEq] at hab
      exact Prod.ext hab.1 hab.2
    have := hkeys.map hinj
    simpa [List.map_map, Function.comp] using this
  have h := run_puts bits calls s [] hc (by simp) (by simp) (by simpa using hkeys')
    hdata (by simpa using halloc)
  simpa using h

/-- C11, amended, with `n = 6` on a clock of 64 bits: the entry of the first
put is the one evicted and the store holds the entries of the second to the
sixth put; the sixth put reuses a node and its allocation outcomes do not
matter. -/
theorem fifo_eviction_witness :
    (run 64 (run 64 initialState [.init true true])
      ([(⟨"a", 1, 11, 0, true, true⟩ : PutCall), ⟨"b", 2, 12, 1, true, true⟩,
        ⟨"c", 3, 13, 2, true, true⟩, ⟨"d", 4, 14, 3, true, true⟩,
        ⟨"e", 5, 15, 4, true, true⟩,
        ⟨"f", 6, 16, 5, false, false⟩].map PutCall.op)).cache =
      some (([(⟨"a", 1, 11, 0, true, true⟩ : PutCall), ⟨"b", 2, 12, 1, true, true⟩,
        ⟨"c", 3, 13, 2, true, true⟩, ⟨"d", 4, 14, 3, true, true⟩,
        ⟨"e", 5, 15, 4, true, true⟩,
        ⟨"f", 6, 16, 5, false, false⟩].map PutCall.entry).drop
          ([(⟨"a", 1, 11, 0, true, true⟩ : PutCall), ⟨"b", 2, 12, 1, true, true⟩,
            ⟨"c", 3, 13, 2, true, true⟩, ⟨"d", 4, 14, 3, true, true⟩,
            ⟨"e", 5, 15, 4, true, true⟩,
            ⟨"f", 6, 16, 5, false, false⟩].length - 5)) ∧
    ([(⟨"a", 1, 11, 0, true, true⟩ : PutCall), ⟨"b", 2, 12, 1, true, true⟩,
        ⟨"c", 3, 13, 2, true, true⟩, ⟨"d", 4, 14, 3, true, true⟩,
        ⟨"e", 5, 15, 4, true, true⟩,
        ⟨"f", 6, 16, 5, false, false⟩].map PutCall.entry).drop
          ([(⟨"a", 1, 11, 0, true, true⟩ : PutCall), ⟨"b", 2, 12, 1, true, true⟩,
            ⟨"c", 3, 13, 2, true, true⟩, ⟨"d", 4, 14, 3, true, true⟩,
            ⟨"e", 5, 15, 4, true, true⟩,
            ⟨"f", 6, 16, 5, false, false⟩].length - 5) =
      [⟨some "b", 2, 12, 1⟩, ⟨some "c", 3, 13, 2⟩, ⟨some "d", 4, 14, 3⟩,
        ⟨some "e", 5, 15, 4⟩, ⟨some "f", 6, 16, 5⟩] :=
  ⟨fifo_eviction 64 (run 64 initialState [.init true true]) _ (by decide)
    (by decide) (by decide) (by decide), by decide⟩

end PersistentConnection
